import Mathlib

/-!
# Verification of the claude-code-sdk control-protocol engine

A shallow embedding, in Lean 4, of the parts of the SDK that the spec's
claims are about:

* the JSON wire values (`JVal`), a model of Python's `json.loads` on the
  integer fragment of JSON (`jsonLoads`), and a compact serializer
  (`encodeV`) standing for the JSON texts the CLI process emits
  (floating-point numbers are outside the model);
* the stdout buffering loop of
  `SubprocessCLITransport._read_messages_impl` (`feedChunks`);
* the message-routing read loop, inbound control-request dispatch,
  outbound-request timeout handling and content-queue consumption of
  `_internal/query.py` (`routeStep`, `handleControlRequest`,
  `sendControlTimeout`, `consumeQueue`);
* the client surface of `client.py` (`receiveResponse`, `getServerInfo`).

All strings are modelled as `List Char` so that the character-level
buffering behaviour (Python `str.strip`, `str.split`, concatenation,
`len`) is computed exactly.
-/

/-- A JSON value, with numbers restricted to integers (the protocol model
does not cover floating point). Mirrors what Python `json.loads` produces:
`None`, `bool`, `int`, `str`, `list`, `dict` (as a key/value list in
insertion order). -/
inductive JVal where
  | null : JVal
  | bool (b : Bool) : JVal
  | int (n : Int) : JVal
  | str (s : List Char) : JVal
  | arr (items : List JVal) : JVal
  | obj (fields : List (List Char × JVal)) : JVal
deriving Repr

mutual

/-- Boolean equality on `JVal` (the nested inductive blocks automatic
derivation, so decidable equality is built by hand). -/
def beqJ : JVal → JVal → Bool
  | .null, .null => true
  | .bool a, .bool b => a == b
  | .int a, .int b => a == b
  | .str a, .str b => a == b
  | .arr xs, .arr ys => beqL xs ys
  | .obj xs, .obj ys => beqF xs ys
  | _, _ => false

def beqL : List JVal → List JVal → Bool
  | [], [] => true
  | x :: xs, y :: ys => beqJ x y && beqL xs ys
  | _, _ => false

def beqF : List (List Char × JVal) → List (List Char × JVal) → Bool
  | [], [] => true
  | (k, v) :: xs, (k2, v2) :: ys => k == k2 && beqJ v v2 && beqF xs ys
  | _, _ => false

end

mutual

theorem beqJ_eq : ∀ a b : JVal, beqJ a b = true ↔ a = b
  | .null, b => by cases b <;> simp [beqJ]
  | .bool x, b => by cases b <;> simp [beqJ]
  | .int x, b => by cases b <;> simp [beqJ]
  | .str x, b => by cases b <;> simp [beqJ]
  | .arr xs, b => by
    cases b <;> simp [beqJ]
    exact beqL_eq xs _
  | .obj xs, b => by
    cases b <;> simp [beqJ]
    exact beqF_eq xs _

theorem beqL_eq : ∀ xs ys : List JVal, beqL xs ys = true ↔ xs = ys
  | [], ys => by cases ys <;> simp [beqL]
  | x :: xs, ys => by
    cases ys with
    | nil => simp [beqL]
    | cons y ys => simp [beqL, beqJ_eq x y, beqL_eq xs ys]

theorem beqF_eq :
    ∀ xs ys : List (List Char × JVal), beqF xs ys = true ↔ xs = ys
  | [], ys => by cases ys <;> simp [beqF]
  | (k, v) :: xs, ys => by
    cases ys with
    | nil => simp [beqF]
    | cons y ys =>
      obtain ⟨k2, v2⟩ := y
      simp [beqF, beqJ_eq v v2, beqF_eq xs ys, and_assoc]

end

instance : DecidableEq JVal := fun a b => decidable_of_iff _ (beqJ_eq a b)

/-- Characters treated as whitespace by the JSON grammar (RFC 8259) and,
for our purposes, by Python `str.strip()` (other Unicode whitespace does
not occur in the model). -/
def isWSChar (c : Char) : Bool :=
  c = ' ' || c = '\t' || c = '\n' || c = '\r'

/-- Skip leading JSON whitespace. -/
def skipWS (cs : List Char) : List Char := cs.dropWhile isWSChar

/-- Model of Python `str.strip()`: drop whitespace from both ends. -/
def pyStrip (cs : List Char) : List Char :=
  (((cs.dropWhile isWSChar).reverse).dropWhile isWSChar).reverse

/-- Model of Python `str.split("\n")`: split at every newline, keeping
empty segments. -/
def splitNL : List Char → List (List Char)
  | [] => [[]]
  | c :: cs =>
    if c = '\n' then [] :: splitNL cs
    else
      match splitNL cs with
      | [] => [[c]]
      | seg :: segs => (c :: seg) :: segs

def isDigitC (c : Char) : Bool := 48 ≤ c.toNat && c.toNat ≤ 57

def digitV (c : Char) : Nat := c.toNat - '0'.toNat

/-- Greedily take a run of decimal digits. -/
def grabDigits : List Char → List Char × List Char
  | [] => ([], [])
  | c :: cs =>
    if isDigitC c then (c :: (grabDigits cs).1, (grabDigits cs).2)
    else ([], c :: cs)

/-- Numeric value of a digit run (most significant first). -/
def digitsNat (ds : List Char) : Nat :=
  ds.foldl (fun a c => a * 10 + digitV c) 0

/-- Parse a JSON natural-number token, enforcing the grammar's
no-leading-zero rule (as `json.loads` does). -/
def parseNatTok : List Char → Option (Nat × List Char)
  | c :: cs =>
    if isDigitC c then
      if c = '0' then
        match cs with
        | d :: _ => if isDigitC d then none else some (0, cs)
        | [] => some (0, [])
      else
        let p := grabDigits cs
        some (digitsNat (c :: p.1), p.2)
    else none
  | [] => none

/-- Parse a JSON integer token (optional minus sign, then digits). -/
def parseIntTok : List Char → Option (Int × List Char)
  | '-' :: cs =>
    match parseNatTok cs with
    | some (n, r) => some (-(n : Int), r)
    | none => none
  | cs =>
    match parseNatTok cs with
    | some (n, r) => some ((n : Int), r)
    | none => none

def hexDigVal (c : Char) : Option Nat :=
  if 48 ≤ c.toNat && c.toNat ≤ 57 then some (c.toNat - 48)
  else if 97 ≤ c.toNat && c.toNat ≤ 102 then some (c.toNat - 87)
  else if 65 ≤ c.toNat && c.toNat ≤ 70 then some (c.toNat - 55)
  else none

/-- The single-character JSON escapes. -/
def escDecode (e : Char) : Option Char :=
  if e = 'n' then some '\n'
  else if e = 't' then some '\t'
  else if e = 'r' then some '\r'
  else if e = 'b' then some (Char.ofNat 8)
  else if e = 'f' then some (Char.ofNat 12)
  else if e = '/' then some '/'
  else if e = '\\' then some '\\'
  else if e = '"' then some '"'
  else none

/-- Parse the body of a JSON string after the opening quote, handling
escapes, and rejecting raw control characters as `json.loads` (strict
mode) does. Returns decoded characters and the remainder after the
closing quote. -/
def parseStrBody : List Char → Option (List Char × List Char)
  | [] => none
  | c :: r =>
    if c = '"' then some ([], r)
    else if c = '\\' then
      match r with
      | [] => none
      | e :: r1 =>
        if e = 'u' then
          match r1 with
          | h1 :: h2 :: h3 :: h4 :: r2 =>
            (match hexDigVal h1, hexDigVal h2, hexDigVal h3, hexDigVal h4 with
             | some a, some b, some c2, some d =>
               (match parseStrBody r2 with
                | some (s, rest) =>
                  some (Char.ofNat (((a * 16 + b) * 16 + c2) * 16 + d) :: s, rest)
                | none => none)
             | _, _, _, _ => none)
          | _ => none
        else
          match escDecode e with
          | some c2 =>
            (match parseStrBody r1 with
             | some (s, rest) => some (c2 :: s, rest)
             | none => none)
          | none => none
    else if c.toNat < 32 then none
    else
      match parseStrBody r with
      | some (s, rest) => some (c :: s, rest)
      | none => none

mutual

/-- Recursive-descent JSON value reader (fuel-indexed for totality). -/
def parseVal : Nat → List Char → Option (JVal × List Char)
  | 0, _ => none
  | fuel + 1, cs =>
    match skipWS cs with
    | [] => none
    | c :: r =>
      if c = 'n' then
        (match r with
         | 'u' :: 'l' :: 'l' :: r2 => some (.null, r2)
         | _ => none)
      else if c = 't' then
        (match r with
         | 'r' :: 'u' :: 'e' :: r2 => some (.bool true, r2)
         | _ => none)
      else if c = 'f' then
        (match r with
         | 'a' :: 'l' :: 's' :: 'e' :: r2 => some (.bool false, r2)
         | _ => none)
      else if c = '"' then
        (match parseStrBody r with
         | some (s, r1) => some (.str s, r1)
         | none => none)
      else if c = '[' then
        (match skipWS r with
         | [] => none
         | c1 :: r1 =>
           if c1 = ']' then some (.arr [], r1)
           else
             match parseItems fuel (c1 :: r1) with
             | some (vs, r2) => some (.arr vs, r2)
             | none => none)
      else if c = '{' then
        (match skipWS r with
         | [] => none
         | c1 :: r1 =>
           if c1 = '}' then some (.obj [], r1)
           else
             match parsePairs fuel (c1 :: r1) with
             | some (ps, r2) => some (.obj ps, r2)
             | none => none)
      else
        match parseIntTok (c :: r) with
        | some (n, r1) => some (.int n, r1)
        | none => none

/-- One-or-more comma-separated array items, ending at `]` (the empty
array is handled in `parseVal`). -/
def parseItems : Nat → List Char → Option (List JVal × List Char)
  | 0, _ => none
  | fuel + 1, cs =>
    match parseVal fuel cs with
    | none => none
    | some (v, r) =>
      match skipWS r with
      | [] => none
      | c :: r1 =>
        if c = ',' then
          (match parseItems fuel r1 with
           | some (vs, r2) => some (v :: vs, r2)
           | none => none)
        else if c = ']' then some ([v], r1)
        else none

/-- One-or-more comma-separated object members, ending at the closing
brace (the empty object is handled in `parseVal`). -/
def parsePairs : Nat → List Char → Option (List (List Char × JVal) × List Char)
  | 0, _ => none
  | fuel + 1, cs =>
    match skipWS cs with
    | [] => none
    | c :: r =>
      if c = '"' then
        match parseStrBody r with
        | none => none
        | some (k, r1) =>
          match skipWS r1 with
          | [] => none
          | c1 :: r2 =>
            if c1 = ':' then
              match parseVal fuel r2 with
              | none => none
              | some (v, r3) =>
                match skipWS r3 with
                | [] => none
                | c2 :: r4 =>
                  if c2 = ',' then
                    (match parsePairs fuel r4 with
                     | some (ps, r5) => some ((k, v) :: ps, r5)
                     | none => none)
                  else if c2 = '}' then some ([(k, v)], r4)
                  else none
            else none
      else none

end

/-- Model of Python `json.loads` on the integer fragment of JSON: one
complete value, with only whitespace allowed around it. -/
def jsonLoads (cs : List Char) : Option JVal :=
  match parseVal (2 * cs.length + 2) cs with
  | some (v, r) => if skipWS r = [] then some v else none
  | none => none

/-- Lower-case hex digit for `n < 16`. -/
def hexDig (n : Nat) : Char :=
  if n < 10 then Char.ofNat (48 + n) else Char.ofNat (87 + n)

/-- Serialize one character of a JSON string, escaping as serializers do:
quote and backslash, the common control escapes, `\u00XX` for other
control characters. -/
def escChar (c : Char) : List Char :=
  if c = '"' then ['\\', '"']
  else if c = '\\' then ['\\', '\\']
  else if c = '\n' then ['\\', 'n']
  else if c = '\r' then ['\\', 'r']
  else if c = '\t' then ['\\', 't']
  else if c.toNat < 32 then
    ['\\', 'u', '0', '0', hexDig (c.toNat / 16), hexDig (c.toNat % 16)]
  else [c]

/-- Decimal digits of a natural number, most significant first
(structural on a fuel bound so the kernel can evaluate it). -/
def natCharsAux : Nat → Nat → List Char
  | 0, _ => []
  | fuel + 1, n =>
    if n < 10 then [Char.ofNat (48 + n)]
    else natCharsAux fuel (n / 10) ++ [Char.ofNat (48 + n % 10)]

def natChars (n : Nat) : List Char := natCharsAux (n + 1) n

/-- Decimal rendering of an integer. -/
def intChars (i : Int) : List Char :=
  if i < 0 then '-' :: natChars i.natAbs else natChars i.natAbs

mutual

/-- Compact serialization of a JSON value: the model of the JSON texts
that cross the wire (no whitespace between tokens, as emitted by
`JSON.stringify`). -/
def encodeV : JVal → List Char
  | .int n => intChars n
  | .str s => '"' :: (s.flatMap escChar ++ ['"'])
  | .arr vs => '[' :: (encodeItems vs ++ [']'])
  | .obj ps => '{' :: (encodePairs ps ++ ['}'])
  | .null => String.toList "null"
  | .bool true => String.toList "true"
  | .bool false => String.toList "false"

def encodeItems : List JVal → List Char
  | [] => []
  | [v] => encodeV v
  | v :: vs => encodeV v ++ ',' :: encodeItems vs

def encodePairs : List (List Char × JVal) → List Char
  | [] => []
  | [(k, v)] => ('"' :: (k.flatMap escChar ++ ['"'])) ++ ':' :: encodeV v
  | (k, v) :: ps =>
    (('"' :: (k.flatMap escChar ++ ['"'])) ++ ':' :: encodeV v) ++ ',' :: encodePairs ps

end

/-!
## Transport buffering loop

Model of `SubprocessCLITransport._read_messages_impl`
(`_internal/transport/subprocess_cli.py`): each raw chunk from the stdout
stream is stripped, split at newlines, and each piece is stripped again
and appended to an accumulation buffer; if the buffer exceeds
`MAX_BUFFER_SIZE` the loop clears it and raises `CLIJSONDecodeError`;
otherwise the buffer is speculatively parsed, and on success the parsed
object is yielded and the buffer reset.
-/

/-- `_MAX_BUFFER_SIZE = 1024 * 1024  # 1MB buffer limit`. -/
def MAX_BUFFER_SIZE : Nat := 1024 * 1024

/-- How a run of the read loop ends: input exhausted with a leftover
buffer, or the `CLIJSONDecodeError` raised when the buffer limit is
exceeded. -/
inductive LoopExit where
  | ok (buf : List Char) : LoopExit
  | decodeError : LoopExit
deriving DecidableEq, Repr

/-- The inner `for json_line in json_lines` loop: strip each piece, skip
empties, accumulate, enforce the buffer ceiling, speculatively parse.
Returns the objects yielded and how the loop left off. -/
def feedPieces (buf : List Char) : List (List Char) → List JVal × LoopExit
  | [] => ([], .ok buf)
  | piece :: rest =>
    let p := pyStrip piece
    if p = [] then feedPieces buf rest
    else
      let buf1 := buf ++ p
      if MAX_BUFFER_SIZE < buf1.length then ([], .decodeError)
      else
        match jsonLoads buf1 with
        | some v =>
          let out := feedPieces [] rest
          (v :: out.1, out.2)
        | none => feedPieces buf1 rest

/-- The outer `async for line in self._stdout_stream` loop: strip the
chunk, skip if empty, split at newlines, feed the pieces; the buffer
persists across chunks, and a decode error aborts the whole loop. -/
def feedChunks (buf : List Char) : List (List Char) → List JVal × LoopExit
  | [] => ([], .ok buf)
  | chunk :: rest =>
    let s := pyStrip chunk
    if s = [] then feedChunks buf rest
    else
      match feedPieces buf (splitNL s) with
      | (outs, .ok buf1) =>
        let out := feedChunks buf1 rest
        (outs ++ out.1, out.2)
      | (outs, .decodeError) => (outs, .decodeError)

/-- A whole run of the read loop over the chunks the stream delivers,
starting from the empty buffer. -/
def readStdout (chunks : List (List Char)) : List JVal × LoopExit :=
  feedChunks [] chunks

/-!
## Control-protocol engine (`_internal/query.py`)

State and transition functions for `Query`: the read loop's routing of
incoming JSON objects (`routeStep` / `runRead`), inbound control-request
dispatch (`handleControlRequest`), the outbound-request timeout path
(`sendControlTimeout`) and content-queue consumption (`consumeQueue`).
Python `dict`s are modelled as association lists with unique keys;
`anyio.Event` as a `Bool` (set / not set); a raised exception as the
`Except.error` / `Option.none` branch.
-/

def chars (s : String) : List Char := s.toList

/-- `dict.get(key)` on an association list: the value at the first
matching key. -/
def alookup : List (List Char × α) → List Char → Option α
  | [], _ => none
  | p :: l, k => if p.1 = k then some p.2 else alookup l k

/-- `d[k] = v` on an association list: replace in place if the key
exists (as Python dicts do), append otherwise. -/
def aset : List (List Char × α) → List Char → α → List (List Char × α)
  | [], k, v => [(k, v)]
  | p :: l, k, v => if p.1 = k then (k, v) :: l else p :: aset l k v

/-- `d.pop(k, None)` on an association list. -/
def adel : List (List Char × α) → List Char → List (List Char × α)
  | [], _ => []
  | p :: l, k => if p.1 = k then adel l k else p :: adel l k

/-- `dict.get(key)` on a JSON object (`None` on a missing key). -/
def jGet (m : JVal) (k : List Char) : Option JVal :=
  match m with
  | .obj fs => alookup fs k
  | _ => none

/-- Python truthiness of a JSON value (`not x`). -/
def jFalsy : JVal → Bool
  | .null => true
  | .bool b => !b
  | .int n => n = 0
  | .str s => s.isEmpty
  | .arr l => l.isEmpty
  | .obj l => l.isEmpty

def isObjVal : JVal → Bool
  | .obj _ => true
  | _ => false

instance {ε α : Type} [DecidableEq ε] [DecidableEq α] :
    DecidableEq (Except ε α) := fun a b =>
  match a, b with
  | .ok x, .ok y => decidable_of_iff (x = y) (by simp)
  | .error x, .error y => decidable_of_iff (x = y) (by simp)
  | .ok _, .error _ => isFalse (fun h => nomatch h)
  | .error _, .ok _ => isFalse (fun h => nomatch h)

/-- The engine state the read loop and the outbound-request path touch:
`pending_control_responses` (an `anyio.Event` per correlation ID, the
`Bool` recording whether it was set), `pending_control_results`
(either the response object or the `Exception` payload), the content
message queue, and the control requests handed to `start_soon` for
dispatch. -/
structure EngineState where
  pendingResponses : List (List Char × Bool)
  pendingResults : List (List Char × Except JVal JVal)
  queue : List JVal
  dispatched : List JVal
deriving DecidableEq, Repr

/-- `max_buffer_size=100` of the content message stream
(`Query.__init__`). -/
def messageQueueCapacity : Nat := 100

/-- One iteration of the `_read_messages` routing loop on one incoming
object. `none` models the `AttributeError` that `.get` raises when the
parsed value is not a dict (caught by the loop's `except` clause). -/
def routeStep (st : EngineState) (m : JVal) : Option EngineState :=
  if !isObjVal m then none
  else
    let mt := jGet m (chars "type")
    if mt = some (.str (chars "control_response")) then
      let response := (jGet m (chars "response")).getD (.obj [])
      match jGet response (chars "request_id") with
      | some (.str rid) =>
        if (alookup st.pendingResponses rid).isSome then
          let result : Except JVal JVal :=
            if jGet response (chars "subtype") = some (.str (chars "error")) then
              .error ((jGet response (chars "error")).getD (.str (chars "Unknown error")))
            else .ok response
          some { st with
                  pendingResults := aset st.pendingResults rid result,
                  pendingResponses := aset st.pendingResponses rid true }
        else some st
      | _ => some st
    else if mt = some (.str (chars "control_request")) then
      some { st with dispatched := st.dispatched ++ [m] }
    else if mt = some (.str (chars "control_cancel_request")) then
      some st
    else
      some { st with queue := st.queue ++ [m] }

/-- Run the routing loop over a list of incoming objects (with
`self._closed` staying false); the `Bool` records whether a routing
exception aborted the loop. -/
def runRead (st : EngineState) : List JVal → EngineState × Bool
  | [] => (st, false)
  | m :: ms =>
    match routeStep st m with
    | some st1 => runRead st1 ms
    | none => (st, true)

/-- Objects routed to the content queue: everything that is not one of
the three control message types. -/
def isContentMsg (m : JVal) : Bool :=
  !(jGet m (chars "type") = some (.str (chars "control_request"))) &&
  !(jGet m (chars "type") = some (.str (chars "control_response"))) &&
  !(jGet m (chars "type") = some (.str (chars "control_cancel_request")))

/-- The `{"type": "end"}` sentinel the reader always enqueues last. -/
def endMsg : JVal := .obj [(chars "type", .str (chars "end"))]

/-- The `{"type": "error", "error": str(e)}` object enqueued when the
reader loop fails. -/
def errMsg (e : List Char) : JVal :=
  .obj [(chars "type", .str (chars "error")), (chars "error", .str e)]

/-- Everything `_read_messages` puts on the content queue for a session
whose transport yields `msgs` (all JSON objects) and then either ends
cleanly (`fault = none`) or raises with message `e` (`fault = some e`):
the routed content messages, then on a fault the error object, then in
the `finally` block the end sentinel, exactly once. -/
def readerQueue (msgs : List JVal) (fault : Option (List Char)) : List JVal :=
  (runRead ⟨[], [], [], []⟩ msgs).1.queue ++
    (match fault with
     | some e => [errMsg e, endMsg]
     | none => [endMsg])

/-- `Query.receive_messages`: drain the queue, stopping at the end
sentinel, raising (second component) on an error object, yielding
everything else in order. -/
def consumeQueue : List JVal → List JVal × Option JVal
  | [] => ([], none)
  | m :: ms =>
    if jGet m (chars "type") = some (.str (chars "end")) then ([], none)
    else if jGet m (chars "type") = some (.str (chars "error")) then
      ([], some ((jGet m (chars "error")).getD (.str (chars "Unknown error"))))
    else
      let out := consumeQueue ms
      (m :: out.1, out.2)

/-!
## Inbound control-request dispatch (`Query._handle_control_request`)

The user callbacks are modelled as oracles returning `Except`: the
`error` branch stands for the callback raising. The structured
`RequestBody` mirrors the `SDKControlRequest` TypedDicts of `types.py`
(requests with the mandatory envelope fields present, as the CLI sends
them). Transport writes are recorded at parsed-object level.
-/

/-- An ASCII apostrophe (used in error-message texts). -/
def apos : Char := Char.ofNat 39

/-- `str(...)` as used inside the f-strings of the modelled error
messages (container reprs never occur there). -/
def fstr : Option JVal → List Char
  | some (.str s) => s
  | some (.int n) => intChars n
  | some (.bool true) => chars "True"
  | some (.bool false) => chars "False"
  | some .null => chars "None"
  | some (.arr _) => []
  | some (.obj _) => []
  | none => chars "None"

/-- `ToolPermissionContext` of `types.py`: no abort signal yet, plus the
permission suggestions forwarded by the CLI. -/
structure ToolPermissionContext where
  signal : Option JVal
  suggestions : JVal
deriving DecidableEq, Repr

/-- The value a permission callback comes back with:
`PermissionResultAllow` / `PermissionResultDeny` of `types.py`, or a
value of any other type (`invalid`, carrying the rendering of its
type). -/
inductive PermissionResult where
  | allow (updatedInput : Option (List (List Char × JVal)))
      (updatedPermissions : Option JVal) : PermissionResult
  | deny (message : List Char) (interrupt : Bool) : PermissionResult
  | invalid (typeName : List Char) : PermissionResult

/-- A registered hook callback: receives the input payload, the optional
tool-use ID and the hook context, returns a JSON-compatible object or
raises. -/
def HookFn : Type :=
  Option JVal → Option JVal → JVal → Except (List Char) JVal

/-- One tool of an in-process MCP server, as surfaced by `tools/list`. -/
structure SdkMcpTool where
  name : List Char
  description : Option (List Char)
  inputSchema : Option JVal

/-- Content item returned by a tool handler; items with neither `text`
nor `data`/`mimeType` attributes are dropped by the bridge. -/
inductive McpContentItem where
  | text (t : List Char) : McpContentItem
  | image (data : List Char) (mime : List Char) : McpContentItem
  | opaqueItem : McpContentItem

/-- An in-process MCP server: its registered request handlers are
oracles (absent handler ⇒ the code falls through to "method not
found"; `Except.error` ⇒ the handler raised). -/
structure SdkMcpServer where
  name : List Char
  version : Option (List Char)
  listToolsHandler : Option (Except (List Char) (List SdkMcpTool))
  callToolHandler :
    Option (List Char → JVal → Except (List Char) (List McpContentItem × Bool))

/-- The callbacks a `Query` is constructed with. -/
structure QueryCallbacks where
  canUseTool :
    Option (List Char → List (List Char × JVal) → ToolPermissionContext →
      Except (List Char) PermissionResult)
  hookCallbacks : List (List Char × HookFn)
  sdkMcpServers : List (List Char × SdkMcpServer)

/-- An inbound control request's `request` member, by subtype
(`SDKControlPermissionRequest`, `SDKHookCallbackRequest`, the
`mcp_message` shape, or an unrecognized subtype). -/
inductive RequestBody where
  | canUseTool (toolName : List Char) (input : List (List Char × JVal))
      (permissionSuggestions : Option JVal) : RequestBody
  | hookCallback (callbackId : List Char) (input : Option JVal)
      (toolUseId : Option JVal) : RequestBody
  | mcpMessage (serverName : Option (List Char)) (message : Option JVal) :
      RequestBody
  | unknownSubtype (subtype : List Char) : RequestBody

/-- A full inbound control request envelope. -/
structure ControlRequest where
  requestId : List Char
  request : RequestBody

/-- JSON-RPC error response helper (`_handle_sdk_mcp_request`). -/
def jsonrpcError (mid : Option JVal) (code : Int) (msg : List Char) : JVal :=
  .obj [(chars "jsonrpc", .str (chars "2.0")),
        (chars "id", mid.getD .null),
        (chars "error",
          .obj [(chars "code", .int code), (chars "message", .str msg)])]

/-- JSON-RPC success response helper (`_handle_sdk_mcp_request`). -/
def jsonrpcResult (mid : Option JVal) (result : JVal) : JVal :=
  .obj [(chars "jsonrpc", .str (chars "2.0")),
        (chars "id", mid.getD .null),
        (chars "result", result)]

/-- The wire form of one tool in the `tools/list` response. -/
def mcpToolJson (t : SdkMcpTool) : JVal :=
  .obj [(chars "name", .str t.name),
        (chars "description",
          match t.description with
          | some d => .str d
          | none => .null),
        (chars "inputSchema",
          match t.inputSchema with
          | some s => if jFalsy s then .obj [] else s
          | none => .obj [])]

def mcpContentJson : McpContentItem → Option JVal
  | .text t =>
    some (.obj [(chars "type", .str (chars "text")), (chars "text", .str t)])
  | .image d m =>
    some (.obj [(chars "type", .str (chars "image")),
                (chars "data", .str d), (chars "mimeType", .str m)])
  | .opaqueItem => none

/-- `Query._handle_sdk_mcp_request`: manual routing of a JSON-RPC message
to an in-process MCP server. Always returns a response object (errors
are JSON-RPC error objects, not exceptions). -/
def handleSdkMcpRequest (servers : List (List Char × SdkMcpServer))
    (serverName : List Char) (message : JVal) : JVal :=
  let mid := jGet message (chars "id")
  match alookup servers serverName with
  | none =>
    jsonrpcError mid (-32601)
      (chars "Server " ++ [apos] ++ serverName ++ [apos] ++ chars " not found")
  | some server =>
    let method := jGet message (chars "method")
    let params := (jGet message (chars "params")).getD (.obj [])
    if method = some (.str (chars "initialize")) then
      jsonrpcResult mid
        (.obj [(chars "protocolVersion", .str (chars "2024-11-05")),
               (chars "capabilities", .obj [(chars "tools", .obj [])]),
               (chars "serverInfo",
                 .obj [(chars "name", .str server.name),
                       (chars "version",
                         .str ((server.version).getD (chars "1.0.0")))])])
    else if method = some (.str (chars "tools/list")) then
      match server.listToolsHandler with
      | some (.ok tools) =>
        jsonrpcResult mid (.obj [(chars "tools", .arr (tools.map mcpToolJson))])
      | some (.error e) => jsonrpcError mid (-32603) e
      | none =>
        jsonrpcError mid (-32601)
          (chars "Method " ++ [apos] ++ fstr method ++ [apos] ++ chars " not found")
    else if method = some (.str (chars "tools/call")) then
      match server.callToolHandler with
      | some handler =>
        (match jGet params (chars "name") with
         | some (.str toolName) =>
           (match handler toolName ((jGet params (chars "arguments")).getD (.obj [])) with
            | .ok (content, isErr) =>
              jsonrpcResult mid
                (.obj ((chars "content", .arr (content.filterMap mcpContentJson)) ::
                  (if isErr then [(chars "is_error", .bool true)] else [])))
            | .error e => jsonrpcError mid (-32603) e)
         | _ => jsonrpcError mid (-32603) (chars "invalid tool name"))
      | none =>
        jsonrpcError mid (-32601)
          (chars "Method " ++ [apos] ++ fstr method ++ [apos] ++ chars " not found")
    else if method = some (.str (chars "notifications/initialized")) then
      .obj [(chars "jsonrpc", .str (chars "2.0")), (chars "result", .obj [])]
    else
      jsonrpcError mid (-32601)
        (chars "Method " ++ [apos] ++ fstr method ++ [apos] ++ chars " not found")

/-- The `ToolPermissionContext` built in the `can_use_tool` branch:
`signal=None`, suggestions from
`request.get("permission_suggestions", []) or []`. -/
def permissionContext (permissionSuggestions : Option JVal) :
    ToolPermissionContext :=
  { signal := none
    suggestions :=
      match permissionSuggestions with
      | some s => if jFalsy s then .arr [] else s
      | none => .arr [] }

/-- The `try`-block body of `Query._handle_control_request`: compute
`response_data` for one inbound request, `Except.error` standing for any
exception raised on the way. -/
def dispatchRequest (cb : QueryCallbacks) (body : RequestBody) :
    Except (List Char) JVal :=
  match body with
  | .canUseTool toolName input permissionSuggestions =>
    (match cb.canUseTool with
     | none => .error (chars "canUseTool callback is not provided")
     | some f =>
       match f toolName input (permissionContext permissionSuggestions) with
       | .error e => .error e
       | .ok (.allow updatedInput _) =>
         .ok (.obj ((chars "allow", .bool true) ::
           (match updatedInput with
            | some m => [(chars "input", .obj m)]
            | none => [])))
       | .ok (.deny message _) =>
         .ok (.obj [(chars "allow", .bool false),
                    (chars "reason", .str message)])
       | .ok (.invalid typeName) =>
         .error (chars "Tool permission callback must return PermissionResult (PermissionResultAllow or PermissionResultDeny), got " ++ typeName))
  | .hookCallback callbackId input toolUseId =>
    (match alookup cb.hookCallbacks callbackId with
     | none => .error (chars "No hook callback found for ID: " ++ callbackId)
     | some callback =>
       callback input toolUseId (.obj [(chars "signal", .null)]))
  | .mcpMessage serverName message =>
    (match serverName, message with
     | some sn, some msg =>
       if sn.isEmpty || jFalsy msg then
         .error (chars "Missing server_name or message for MCP request")
       else
         .ok (.obj [(chars "mcp_response",
           handleSdkMcpRequest cb.sdkMcpServers sn msg)])
     | _, _ => .error (chars "Missing server_name or message for MCP request"))
  | .unknownSubtype subtype =>
    .error (chars "Unsupported control request subtype: " ++ subtype)

/-- A success control response line, as written back to the transport. -/
def successResponse (rid : List Char) (data : JVal) : JVal :=
  .obj [(chars "type", .str (chars "control_response")),
        (chars "response",
          .obj [(chars "subtype", .str (chars "success")),
                (chars "request_id", .str rid),
                (chars "response", data)])]

/-- An error control response line, as written back to the transport. -/
def errorResponse (rid : List Char) (e : List Char) : JVal :=
  .obj [(chars "type", .str (chars "control_response")),
        (chars "response",
          .obj [(chars "subtype", .str (chars "error")),
                (chars "request_id", .str rid),
                (chars "error", .str e)])]

/-- `Query._handle_control_request`: dispatch one inbound request and
write back the one correlated control response — the success wire form
on a normal return, the error wire form when anything raised. The
returned list holds the transport writes the handler performs. -/
def handleControlRequest (cb : QueryCallbacks) (req : ControlRequest) :
    List JVal :=
  match dispatchRequest cb req.request with
  | .ok data => [successResponse req.requestId data]
  | .error e => [errorResponse req.requestId e]

/-- The `request_id` carried inside a control-response line. -/
def responseRequestId (w : JVal) : Option JVal :=
  match jGet w (chars "response") with
  | some resp => jGet resp (chars "request_id")
  | none => none

/-!
## Outbound control requests (`Query._send_control_request`)
-/

/-- Correlation IDs: `f"req_{self._request_counter}_{os.urandom(4).hex()}"`
with the counter already incremented; the entropy suffix is a
parameter. -/
def mkRequestId (counter : Nat) (entropy : List Char) : List Char :=
  chars "req_" ++ natChars counter ++ chars "_" ++ entropy

/-- Registering the completion event before writing the request line. -/
def registerPending (st : EngineState) (rid : List Char) : EngineState :=
  { st with pendingResponses := aset st.pendingResponses rid false }

/-- The `except TimeoutError` path of `_send_control_request`: pop the
pending entries for this one request and raise
`Exception(f"Control request timeout: {request.get('subtype')}")`.
Returns the state afterwards and the exception's message. -/
def sendControlTimeout (st : EngineState) (rid : List Char) (request : JVal) :
    EngineState × List Char :=
  ({ st with
      pendingResponses := adel st.pendingResponses rid,
      pendingResults := adel st.pendingResults rid },
   chars "Control request timeout: " ++ fstr (jGet request (chars "subtype")))

/-- The fixed timeout ceiling of `anyio.fail_after(60.0)`, in seconds. -/
def controlRequestTimeoutSeconds : Nat := 60

/-!
## Session client (`client.py`)
-/

/-- The typed domain messages of `types.py` (`Message` union). The
optional floating-point fields of `ResultMessage` are outside the
model. -/
inductive SDKMessage where
  | user (content : JVal) : SDKMessage
  | assistant (content : List JVal) (model : List Char) : SDKMessage
  | system (subtype : List Char) (data : JVal) : SDKMessage
  | result (subtype : List Char) (durationMs : Int) (durationApiMs : Int)
      (isError : Bool) (numTurns : Int) (sessionId : List Char) : SDKMessage
deriving DecidableEq, Repr

/-- `isinstance(message, ResultMessage)`. -/
def isResultMessage : SDKMessage → Bool
  | .result .. => true
  | _ => false

/-- `ClaudeSDKClient.receive_response`: yield every message from the
underlying stream and stop right after yielding the first
`ResultMessage`. -/
def receiveResponse : List SDKMessage → List SDKMessage
  | [] => []
  | m :: ms => m :: (if isResultMessage m then [] else receiveResponse ms)

/-- The slice of `Query` state that `get_server_info` reads:
`_initialization_result`, set by `Query.initialize` from the response
to the `initialize` control request and never touched again. -/
structure QueryHandle where
  initResult : Option JVal
deriving DecidableEq, Repr

/-- `self._initialization_result = response` in `Query.initialize`. -/
def storeInitResult (q : QueryHandle) (response : JVal) : QueryHandle :=
  { q with initResult := some response }

/-- The slice of `ClaudeSDKClient` state that `get_server_info` reads:
`self._query` (`none` before `connect()` / after `disconnect()`). -/
structure ClientState where
  activeQuery : Option QueryHandle
deriving DecidableEq, Repr

/-- `ClaudeSDKClient.get_server_info`: raises `CLIConnectionError` when
not connected, otherwise returns `_initialization_result` unchanged. -/
def getServerInfo (c : ClientState) : Except (List Char) (Option JVal) :=
  match c.activeQuery with
  | none => .error (chars "Not connected. Call connect() first.")
  | some q => .ok q.initResult

/-!
## Association-list lemmas
-/

theorem alookup_adel_self {α : Type} (l : List (List Char × α)) (k : List Char) :
    alookup (adel l k) k = none := by
  induction l with
  | nil => rfl
  | cons p l ih =>
    by_cases h : p.1 = k
    · simpa [adel, h] using ih
    · simpa [adel, alookup, h] using ih

theorem alookup_adel_other {α : Type} (l : List (List Char × α))
    (k k2 : List Char) (h : k2 ≠ k) :
    alookup (adel l k) k2 = alookup l k2 := by
  induction l with
  | nil => rfl
  | cons p l ih =>
    by_cases hp : p.1 = k
    · have hq : ¬p.1 = k2 := fun hh => h (by rw [← hh, hp])
      simp only [adel, alookup]
      rw [if_pos hp, if_neg hq]
      exact ih
    · by_cases hq : p.1 = k2
      · simp only [adel, alookup]
        rw [if_neg hp, alookup, if_pos hq, if_pos hq]
      · simp only [adel, alookup]
        rw [if_neg hp, alookup, if_neg hq, if_neg hq]
        exact ih

/-!
## Claim C1 — exactly one correlated control response per inbound request
-/

/-- C1: for every inbound control request dispatched by the engine,
exactly one control-response line is written back, it carries the
originating request's correlation ID whatever the subtype and outcome,
and when the dispatch raises the written line is the
`{subtype: error, error: str(e)}` response. -/
theorem dispatch_writes_one_correlated_response
    (cb : QueryCallbacks) (req : ControlRequest) :
    (handleControlRequest cb req).length = 1 ∧
    (∀ w ∈ handleControlRequest cb req,
      responseRequestId w = some (.str req.requestId)) ∧
    (∀ e, dispatchRequest cb req.request = .error e →
      handleControlRequest cb req = [errorResponse req.requestId e]) := by
  unfold handleControlRequest
  rcases h : dispatchRequest cb req.request with e | d
  · refine ⟨rfl, ?_, ?_⟩
    · intro w hw; rw [List.mem_singleton] at hw; subst hw; rfl
    · intro e2 he2
      injection he2 with h3
      subst h3; rfl
  · refine ⟨rfl, ?_, ?_⟩
    · intro w hw; rw [List.mem_singleton] at hw; subst hw; rfl
    · intro e2 he2; cases he2

/-- Witness for C1: a `can_use_tool` request with no registered
permission callback (the dispatch raises) still produces exactly the one
correlated error response. -/
theorem dispatch_writes_one_correlated_response_witness :
    handleControlRequest ⟨none, [], []⟩
        ⟨chars "req_7_ab", .canUseTool (chars "Bash") [] none⟩
      = [errorResponse (chars "req_7_ab")
          (chars "canUseTool callback is not provided")] :=
  (dispatch_writes_one_correlated_response ⟨none, [], []⟩
      ⟨chars "req_7_ab", .canUseTool (chars "Bash") [] none⟩).2.2
    (chars "canUseTool callback is not provided") rfl

/-!
## Claim C3 — `can_use_tool` result mapping
-/

/-- C3: when the registered permission callback answers, an Allow maps to
`{allow: true}` with the `input` field present exactly when a replacement
input map was carried; a Deny maps to `{allow: false, reason: message}`;
any other return value fails the request with an error control response
instead of a success. -/
theorem can_use_tool_result_mapping (cb : QueryCallbacks)
    (f : List Char → List (List Char × JVal) → ToolPermissionContext →
      Except (List Char) PermissionResult)
    (hcb : cb.canUseTool = some f)
    (rid toolName : List Char) (input : List (List Char × JVal))
    (sugg : Option JVal) :
    (∀ perms,
      f toolName input (permissionContext sugg) = .ok (.allow none perms) →
      handleControlRequest cb ⟨rid, .canUseTool toolName input sugg⟩ =
        [successResponse rid (.obj [(chars "allow", .bool true)])]) ∧
    (∀ m perms,
      f toolName input (permissionContext sugg) = .ok (.allow (some m) perms) →
      handleControlRequest cb ⟨rid, .canUseTool toolName input sugg⟩ =
        [successResponse rid
          (.obj [(chars "allow", .bool true), (chars "input", .obj m)])]) ∧
    (∀ msg intr,
      f toolName input (permissionContext sugg) = .ok (.deny msg intr) →
      handleControlRequest cb ⟨rid, .canUseTool toolName input sugg⟩ =
        [successResponse rid
          (.obj [(chars "allow", .bool false), (chars "reason", .str msg)])]) ∧
    (∀ t,
      f toolName input (permissionContext sugg) = .ok (.invalid t) →
      handleControlRequest cb ⟨rid, .canUseTool toolName input sugg⟩ =
        [errorResponse rid
          (chars "Tool permission callback must return PermissionResult (PermissionResultAllow or PermissionResultDeny), got " ++ t)]) := by
  refine ⟨?_, ?_, ?_, ?_⟩
  · intro perms h
    simp [handleControlRequest, dispatchRequest, hcb, h]
  · intro m perms h
    simp [handleControlRequest, dispatchRequest, hcb, h]
  · intro msg intr h
    simp [handleControlRequest, dispatchRequest, hcb, h]
  · intro t h
    simp [handleControlRequest, dispatchRequest, hcb, h]

/-- Witness for C3 at the spec's scenario: the callback denies a `Bash`
tool call with reason "blocked"; the response body is
`{allow: false, reason: "blocked"}`. -/
theorem can_use_tool_result_mapping_witness :
    handleControlRequest
        ⟨some (fun _ _ _ => .ok (.deny (chars "blocked") false)), [], []⟩
        ⟨chars "req_1_ff", .canUseTool (chars "Bash") [] none⟩ =
      [successResponse (chars "req_1_ff")
        (.obj [(chars "allow", .bool false),
               (chars "reason", .str (chars "blocked"))])] :=
  (can_use_tool_result_mapping
      ⟨some (fun _ _ _ => .ok (.deny (chars "blocked") false)), [], []⟩
      (fun _ _ _ => .ok (.deny (chars "blocked") false)) rfl
      (chars "req_1_ff") (chars "Bash") [] none).2.2.1
    (chars "blocked") false rfl

/-!
## Claim C4 — timeout cleanup is local to the one outbound request
-/

/-- C4: the timeout path of `_send_control_request` removes exactly this
request's pending entries, leaves every other pending entry and the rest
of the engine state untouched, and raises an error naming the requested
subtype; the window is the fixed 60-second ceiling. -/
theorem outbound_timeout_isolated_cleanup (st : EngineState) (rid : List Char)
    (request : JVal) (subtype : List Char)
    (hsub : jGet request (chars "subtype") = some (.str subtype)) :
    alookup (sendControlTimeout st rid request).1.pendingResponses rid = none ∧
    alookup (sendControlTimeout st rid request).1.pendingResults rid = none ∧
    (∀ k, k ≠ rid →
      alookup (sendControlTimeout st rid request).1.pendingResponses k =
        alookup st.pendingResponses k) ∧
    (∀ k, k ≠ rid →
      alookup (sendControlTimeout st rid request).1.pendingResults k =
        alookup st.pendingResults k) ∧
    (sendControlTimeout st rid request).1.queue = st.queue ∧
    (sendControlTimeout st rid request).1.dispatched = st.dispatched ∧
    (sendControlTimeout st rid request).2 =
      chars "Control request timeout: " ++ subtype ∧
    controlRequestTimeoutSeconds = 60 := by
  refine ⟨alookup_adel_self _ _, alookup_adel_self _ _,
    fun k hk => alookup_adel_other _ _ _ hk,
    fun k hk => alookup_adel_other _ _ _ hk, rfl, rfl, ?_, rfl⟩
  simp [sendControlTimeout, hsub, fstr]

/-- Witness for C4: with two outbound requests pending, timing out the
first removes only its entries and reports its subtype. -/
theorem outbound_timeout_isolated_cleanup_witness :
    alookup (sendControlTimeout
        ⟨[(chars "req_1_aa", false), (chars "req_2_bb", false)], [], [], []⟩
        (chars "req_1_aa")
        (.obj [(chars "subtype", .str (chars "interrupt"))])).1.pendingResponses
      (chars "req_1_aa") = none ∧
    alookup (sendControlTimeout
        ⟨[(chars "req_1_aa", false), (chars "req_2_bb", false)], [], [], []⟩
        (chars "req_1_aa")
        (.obj [(chars "subtype", .str (chars "interrupt"))])).1.pendingResponses
      (chars "req_2_bb") = some false ∧
    (sendControlTimeout
        ⟨[(chars "req_1_aa", false), (chars "req_2_bb", false)], [], [], []⟩
        (chars "req_1_aa")
        (.obj [(chars "subtype", .str (chars "interrupt"))])).2 =
      chars "Control request timeout: interrupt" := by
  have h := outbound_timeout_isolated_cleanup
    ⟨[(chars "req_1_aa", false), (chars "req_2_bb", false)], [], [], []⟩
    (chars "req_1_aa") (.obj [(chars "subtype", .str (chars "interrupt"))])
    (chars "interrupt") rfl
  exact ⟨h.1, (h.2.2.1 (chars "req_2_bb") (by decide)).trans (by decide),
    h.2.2.2.2.2.2.1⟩

/-!
## Claim C2 — content ordering through the routing loop
-/

/-- Routing one JSON object never raises, and appends it to the content
queue exactly when it is a content message, in arrival order. -/
theorem routeStep_queue (st : EngineState) (m : JVal) (h : isObjVal m = true) :
    ∃ st1, routeStep st m = some st1 ∧
      st1.queue = st.queue ++ (if isContentMsg m then [m] else []) := by
  unfold routeStep
  rw [h]
  simp only [Bool.not_true, Bool.false_eq_true, if_false]
  by_cases h1 : jGet m (chars "type") = some (.str (chars "control_response"))
  · rw [if_pos h1]
    have hc : isContentMsg m = false := by
      simp [isContentMsg, h1]
    rcases hrid : jGet ((jGet m (chars "response")).getD (.obj []))
        (chars "request_id") with _ | v
    · exact ⟨st, rfl, by simp [hc]⟩
    · rcases v with _ | b | n | rid | l | fs
      · exact ⟨st, rfl, by simp [hc]⟩
      · exact ⟨st, rfl, by simp [hc]⟩
      · exact ⟨st, rfl, by simp [hc]⟩
      · dsimp only
        by_cases h2 : (alookup st.pendingResponses rid).isSome
        · rw [if_pos h2]
          exact ⟨_, rfl, by simp [hc]⟩
        · rw [if_neg h2]
          exact ⟨st, rfl, by simp [hc]⟩
      · exact ⟨st, rfl, by simp [hc]⟩
      · exact ⟨st, rfl, by simp [hc]⟩
  · rw [if_neg h1]
    by_cases h2 : jGet m (chars "type") = some (.str (chars "control_request"))
    · rw [if_pos h2]
      have hc : isContentMsg m = false := by simp [isContentMsg, h2]
      exact ⟨_, rfl, by simp [hc]⟩
    · rw [if_neg h2]
      by_cases h3 : jGet m (chars "type") = some (.str (chars "control_cancel_request"))
      · rw [if_pos h3]
        have hc : isContentMsg m = false := by simp [isContentMsg, h3]
        exact ⟨st, rfl, by simp [hc]⟩
      · rw [if_neg h3]
        have hc : isContentMsg m = true := by simp [isContentMsg, h1, h2, h3]
        exact ⟨_, rfl, by simp [hc]⟩

/-- C2: for any arrival sequence of JSON objects, the routing loop runs
to completion and the content queue receives exactly the content
messages (everything that is not a control message), in exactly their
arrival order, however the control messages are interleaved; the queue
is the bounded FIFO of capacity 100. -/
theorem content_order_preserved (st : EngineState) (msgs : List JVal)
    (hobj : ∀ m ∈ msgs, isObjVal m = true) :
    (runRead st msgs).1.queue = st.queue ++ msgs.filter isContentMsg ∧
    (runRead st msgs).2 = false ∧
    messageQueueCapacity = 100 := by
  induction msgs generalizing st with
  | nil => exact ⟨by simp [runRead], rfl, rfl⟩
  | cons m ms ih =>
    obtain ⟨st1, hstep, hq⟩ := routeStep_queue st m (hobj m (by simp))
    have hrest := ih st1 (fun x hx => hobj x (by simp [hx]))
    refine ⟨?_, ?_, rfl⟩
    · rw [runRead, hstep]
      rw [hrest.1, hq, List.filter_cons]
      by_cases hc : isContentMsg m
      · simp [hc]
      · simp [hc]
    · rw [runRead, hstep]
      exact hrest.2.1

/-- Witness for C2: two content messages interleaved with a control
request and an unmatched control response arrive in order; the queue
holds exactly the two content messages, in order. -/
theorem content_order_preserved_witness :
    (runRead ⟨[], [], [], []⟩
        [.obj [(chars "type", .str (chars "assistant"))],
         .obj [(chars "type", .str (chars "control_request")),
               (chars "request_id", .str (chars "x"))],
         .obj [(chars "type", .str (chars "control_response")),
               (chars "response", .obj [(chars "request_id", .str (chars "y"))])],
         .obj [(chars "type", .str (chars "result"))]]).1.queue =
      [.obj [(chars "type", .str (chars "assistant"))],
       .obj [(chars "type", .str (chars "result"))]] := by
  have h := content_order_preserved ⟨[], [], [], []⟩
    [.obj [(chars "type", .str (chars "assistant"))],
     .obj [(chars "type", .str (chars "control_request")),
           (chars "request_id", .str (chars "x"))],
     .obj [(chars "type", .str (chars "control_response")),
           (chars "response", .obj [(chars "request_id", .str (chars "y"))])],
     .obj [(chars "type", .str (chars "result"))]]
    (by decide)
  exact h.1.trans (by decide)

/-!
## Claim C10 — unmatched control responses are silently discarded
-/

/-- C10: a `control_response` whose `request_id` matches no pending
outbound request leaves the engine state exactly as it was: nothing
raised, nothing stored in the pending tables, nothing forwarded to the
content queue. -/
theorem unmatched_control_response_discarded (st : EngineState) (m : JVal)
    (hobj : isObjVal m = true)
    (htype : jGet m (chars "type") = some (.str (chars "control_response")))
    (hmiss : ∀ rid,
      jGet ((jGet m (chars "response")).getD (.obj [])) (chars "request_id") =
        some (.str rid) →
      alookup st.pendingResponses rid = none) :
    routeStep st m = some st := by
  unfold routeStep
  rw [hobj]
  simp only [Bool.not_true, Bool.false_eq_true, if_false]
  rw [if_pos htype]
  rcases hrid : jGet ((jGet m (chars "response")).getD (.obj []))
      (chars "request_id") with _ | v
  · rfl
  · rcases v with _ | b | n | rid | l | fs
    · rfl
    · rfl
    · rfl
    · have hnone := hmiss rid hrid
      dsimp only
      rw [if_neg (by rw [hnone]; simp)]
    · rfl
    · rfl

/-- Witness for C10: a response correlated to an unknown ID against a
state with one (different) pending request changes nothing. -/
theorem unmatched_control_response_discarded_witness :
    routeStep ⟨[(chars "req_1_aa", false)], [], [], []⟩
        (.obj [(chars "type", .str (chars "control_response")),
               (chars "response",
                 .obj [(chars "request_id", .str (chars "req_9_zz"))])]) =
      some ⟨[(chars "req_1_aa", false)], [], [], []⟩ :=
  unmatched_control_response_discarded
    ⟨[(chars "req_1_aa", false)], [], [], []⟩
    (.obj [(chars "type", .str (chars "control_response")),
           (chars "response",
             .obj [(chars "request_id", .str (chars "req_9_zz"))])])
    rfl rfl (by
      intro rid hr
      injection hr with h1
      injection h1 with h2
      rw [← h2]
      decide)

/-!
## Claim C7 — `receive_response` stops inclusively at the first Result
-/

/-- C7: `receive_response()` forwards every message in order and stops
immediately after yielding the first terminal Result message, which is
included; with no terminal message it forwards everything; in
particular one assistant message followed by one result message yields
exactly those two, in that order. -/
theorem receive_response_stops_at_result :
    (∀ (pre : List SDKMessage) (r : SDKMessage) (post : List SDKMessage),
      (∀ m ∈ pre, isResultMessage m = false) → isResultMessage r = true →
      receiveResponse (pre ++ r :: post) = pre ++ [r]) ∧
    (∀ ms : List SDKMessage, (∀ m ∈ ms, isResultMessage m = false) →
      receiveResponse ms = ms) ∧
    (∀ (content : List JVal) (model subtype : List Char)
        (d da : Int) (err : Bool) (nt : Int) (sid : List Char),
      receiveResponse
          [.assistant content model, .result subtype d da err nt sid] =
        [.assistant content model, .result subtype d da err nt sid]) := by
  have hall : ∀ ms : List SDKMessage, (∀ m ∈ ms, isResultMessage m = false) →
      receiveResponse ms = ms := by
    intro ms h
    induction ms with
    | nil => rfl
    | cons m ms ih =>
      rw [receiveResponse, h m (by simp)]
      simp only [Bool.false_eq_true, if_false, List.cons.injEq, true_and]
      exact ih (fun x hx => h x (by simp [hx]))
  refine ⟨?_, hall, ?_⟩
  · intro pre r post hpre hr
    induction pre with
    | nil => simp [receiveResponse, hr]
    | cons m ms ih =>
      rw [List.cons_append, receiveResponse, hpre m (by simp)]
      simp only [Bool.false_eq_true, if_false, List.cons_append, List.cons.injEq,
        true_and]
      exact ih (fun x hx => hpre x (by simp [hx]))
  · intro content model subtype d da err nt sid
    rfl

/-- Witness for C7 at the spec's scenario: one assistant content message
then one terminal result message. -/
theorem receive_response_stops_at_result_witness :
    receiveResponse
        [.assistant [] (chars "claude-sonnet"),
         .result (chars "success") 5 3 false 1 (chars "default"),
         .assistant [] (chars "late")] =
      [.assistant [] (chars "claude-sonnet"),
       .result (chars "success") 5 3 false 1 (chars "default")] :=
  (receive_response_stops_at_result).1
    [.assistant [] (chars "claude-sonnet")]
    (.result (chars "success") 5 3 false 1 (chars "default"))
    [.assistant [] (chars "late")]
    (by decide) rfl

/-!
## Claim C9 — `get_server_info` (corrected)
-/

/-- Counterexample to C9 as stated: on a client that was never connected
(`self._query is None`, so in particular the session was never
initialized), `get_server_info()` raises `CLIConnectionError` instead of
returning `None`. -/
theorem get_server_info_disconnected_raises :
    getServerInfo ⟨none⟩ =
        .error (chars "Not connected. Call connect() first.") ∧
    getServerInfo ⟨none⟩ ≠ .ok none := by
  exact ⟨rfl, by decide⟩

/-- C9 (amended): on a connected client, `get_server_info()` returns the
stored `initialize` response exactly as stored (verbatim), and `None`
when initialization never completed; before `connect()` it instead
raises a not-connected error. -/
theorem get_server_info_returns_stored (q : QueryHandle) (response : JVal) :
    getServerInfo ⟨some (storeInitResult q response)⟩ = .ok (some response) ∧
    getServerInfo ⟨some ⟨none⟩⟩ = .ok none ∧
    getServerInfo ⟨none⟩ =
      .error (chars "Not connected. Call connect() first.") := by
  exact ⟨rfl, rfl, rfl⟩

/-!
## Claim C8 — queue sentinel discipline (corrected)
-/

/-- The routing loop appends to the content queue exactly the content
messages, in order (helper shared by the queue-discipline results). -/
theorem runRead_queue_filter (st : EngineState) (msgs : List JVal)
    (hobj : ∀ m ∈ msgs, isObjVal m = true) :
    (runRead st msgs).1.queue = st.queue ++ msgs.filter isContentMsg := by
  induction msgs generalizing st with
  | nil => simp [runRead]
  | cons m ms ih =>
    obtain ⟨st1, hstep, hq⟩ := routeStep_queue st m (hobj m (by simp))
    rw [runRead, hstep, ih st1 (fun x hx => hobj x (by simp [hx])), hq,
      List.filter_cons]
    by_cases hc : isContentMsg m <;> simp [hc]

/-- The consumer passes plain content objects through untouched until it
meets a sentinel. -/
theorem consumeQueue_append (contents tail : List JVal)
    (h : ∀ m ∈ contents,
      jGet m (chars "type") ≠ some (.str (chars "end")) ∧
      jGet m (chars "type") ≠ some (.str (chars "error"))) :
    consumeQueue (contents ++ tail) =
      (contents ++ (consumeQueue tail).1, (consumeQueue tail).2) := by
  induction contents with
  | nil => rfl
  | cons m ms ih =>
    have hm := h m (by simp)
    rw [List.cons_append, consumeQueue, if_neg hm.1, if_neg hm.2,
      ih (fun x hx => h x (by simp [hx]))]
    rfl

/-- Counterexample to C8 as stated: when the reader loop fails, the
error object is not the last object on the queue — the end sentinel is
enqueued after it by the `finally` block. -/
theorem error_object_not_last_on_queue :
    readerQueue [] (some (chars "boom")) = [errMsg (chars "boom"), endMsg] ∧
    (readerQueue [] (some (chars "boom"))).getLast? = some endMsg ∧
    endMsg ≠ errMsg (chars "boom") := by decide

/-- C8 (amended): the end sentinel is enqueued exactly once per session
and is the true last object on the queue; an error object, when
enqueued, is immediately followed only by that end sentinel, and the
consumer raises on it — so the reader failure, not the sentinel, is the
final item the consumer observes before the stream closes. -/
theorem reader_queue_sentinel_discipline (msgs : List JVal)
    (fault : Option (List Char))
    (hobj : ∀ m ∈ msgs, isObjVal m = true)
    (hne : ∀ m ∈ msgs,
      jGet m (chars "type") ≠ some (.str (chars "end")) ∧
      jGet m (chars "type") ≠ some (.str (chars "error"))) :
    (readerQueue msgs fault).count endMsg = 1 ∧
    (readerQueue msgs fault).getLast? = some endMsg ∧
    (∀ e, fault = some e →
      readerQueue msgs fault = msgs.filter isContentMsg ++ [errMsg e, endMsg] ∧
      consumeQueue (readerQueue msgs fault) =
        (msgs.filter isContentMsg, some (.str e))) ∧
    (fault = none →
      consumeQueue (readerQueue msgs fault) =
        (msgs.filter isContentMsg, none)) := by
  have hq : readerQueue msgs fault =
      msgs.filter isContentMsg ++
        (match fault with
         | some e => [errMsg e, endMsg]
         | none => [endMsg]) := by
    rw [readerQueue.eq_def, runRead_queue_filter _ _ hobj]
    rfl
  have hcontents : ∀ m ∈ msgs.filter isContentMsg,
      jGet m (chars "type") ≠ some (.str (chars "end")) ∧
      jGet m (chars "type") ≠ some (.str (chars "error")) :=
    fun m hm => hne m (List.mem_of_mem_filter hm)
  have hnotend : endMsg ∉ msgs.filter isContentMsg := by
    intro hmem
    exact (hcontents endMsg hmem).1 rfl
  have herrne : ∀ e : List Char, ¬(errMsg e = endMsg) := by
    intro e h
    injection h with h1
    injection h1 with h2 h3
    cases h3
  refine ⟨?_, ?_, ?_, ?_⟩
  · rw [hq, List.count_append]
    rw [List.count_eq_zero.mpr hnotend]
    cases fault with
    | none => simp [List.count_cons]
    | some e =>
      simp [List.count_cons, herrne e]
  · rw [hq]
    cases fault with
    | none => rw [List.getLast?_append]; rfl
    | some e => rw [List.getLast?_append]; rfl
  · intro e hf
    subst hf
    refine ⟨hq, ?_⟩
    have hcq : consumeQueue [errMsg e, endMsg] = ([], some (.str e)) := rfl
    rw [hq, consumeQueue_append _ _ hcontents, hcq]
    simp
  · intro hf
    subst hf
    have hcq : consumeQueue [endMsg] = ([], none) := rfl
    rw [hq, consumeQueue_append _ _ hcontents, hcq]
    simp

/-- Witness for C8 (amended): one content message, then a reader fault. -/
theorem reader_queue_sentinel_discipline_witness :
    consumeQueue (readerQueue [.obj [(chars "type", .str (chars "assistant"))]]
        (some (chars "decode failure"))) =
      ([.obj [(chars "type", .str (chars "assistant"))]],
        some (.str (chars "decode failure"))) :=
  ((reader_queue_sentinel_discipline
      [.obj [(chars "type", .str (chars "assistant"))]]
      (some (chars "decode failure"))
      (by decide) (by decide)).2.2.1 (chars "decode failure") rfl).2.trans
    (by decide)

/-!
## JSON codec lemmas

Groundwork for the buffering claims: the compact serialization parses
back to the same value (`rt` lemmas), parsing an encoded text is
deterministic about what it consumes (`det` lemmas), and no proper
prefix of an encoded object parses (`pfxNone` lemmas).
-/

theorem parseVal_nil : ∀ fuel, parseVal fuel [] = none
  | 0 => rfl
  | _ + 1 => rfl

theorem parseItems_nil : ∀ fuel, parseItems fuel [] = none
  | 0 => rfl
  | fuel + 1 => by simp [parseItems, parseVal_nil]

theorem parsePairs_nil : ∀ fuel, parsePairs fuel [] = none
  | 0 => rfl
  | _ + 1 => rfl

theorem skipWS_cons_not_ws {c : Char} (h : isWSChar c = false) (t : List Char) :
    skipWS (c :: t) = c :: t := by
  simp [skipWS, List.dropWhile_cons, h]

/-- Does the input start with a decimal digit (so that it could extend a
number token)? -/
def digitHead : List Char → Bool
  | c :: _ => isDigitC c
  | [] => false

theorem digit_char_spec (k : Nat) (h : k < 10) :
    isDigitC (Char.ofNat (48 + k)) = true ∧
    digitV (Char.ofNat (48 + k)) = k ∧
    isWSChar (Char.ofNat (48 + k)) = false ∧
    (k ≠ 0 → Char.ofNat (48 + k) ≠ '0') := by
  interval_cases k <;> refine ⟨by decide, by decide, by decide, ?_⟩ <;> decide

theorem natCharsAux_eq (n : Nat) : ∀ f g, n < f → n < g →
    natCharsAux f n = natCharsAux g n := by
  induction n using Nat.strongRecOn with
  | _ n ih =>
    intro f g hf hg
    match f, g with
    | f + 1, g + 1 =>
      by_cases h10 : n < 10
      · simp [natCharsAux, h10]
      · have hr : n / 10 < n := Nat.div_lt_self (by omega) (by omega)
        simp only [natCharsAux, if_neg h10]
        rw [ih (n / 10) hr f g (by omega) (by omega)]

theorem natChars_lt {n : Nat} (h : n < 10) :
    natChars n = [Char.ofNat (48 + n)] := by
  rw [natChars, natCharsAux, if_pos h]

theorem natChars_ge {n : Nat} (h : 10 ≤ n) :
    natChars n = natChars (n / 10) ++ [Char.ofNat (48 + n % 10)] := by
  have hr : n / 10 < n := Nat.div_lt_self (by omega) (by omega)
  rw [natChars, natCharsAux, if_neg (by omega), natChars,
    natCharsAux_eq (n / 10) n (n / 10 + 1) (by omega) (by omega)]

theorem natChars_ne_nil (n : Nat) : natChars n ≠ [] := by
  rcases Nat.lt_or_ge n 10 with h | h
  · rw [natChars_lt h]; simp
  · rw [natChars_ge (by omega)]; simp

theorem natChars_all_digits (n : Nat) : ∀ c ∈ natChars n, isDigitC c = true := by
  induction n using Nat.strongRecOn with
  | _ n ih =>
    rcases Nat.lt_or_ge n 10 with h | h
    · rw [natChars_lt h]
      intro c hc
      rw [List.mem_singleton] at hc
      subst hc
      exact (digit_char_spec n h).1
    · rw [natChars_ge (by omega)]
      intro c hc
      rw [List.mem_append] at hc
      rcases hc with hc | hc
      · exact ih (n / 10) (Nat.div_lt_self (by omega) (by omega)) c hc
      · rw [List.mem_singleton] at hc
        subst hc
        exact (digit_char_spec (n % 10) (Nat.mod_lt _ (by omega))).1

theorem natChars_head (n : Nat) :
    ∃ c t, natChars n = c :: t ∧ isDigitC c = true ∧ (n ≠ 0 → c ≠ '0') := by
  induction n using Nat.strongRecOn with
  | _ n ih =>
    rcases Nat.lt_or_ge n 10 with h | h
    · refine ⟨Char.ofNat (48 + n), [], natChars_lt h, (digit_char_spec n h).1,
        (digit_char_spec n h).2.2.2⟩
    · obtain ⟨c, t, hct, hcd, hc0⟩ := ih (n / 10) (Nat.div_lt_self (by omega) (by omega))
      refine ⟨c, t ++ [Char.ofNat (48 + n % 10)], ?_, hcd,
        fun _ => hc0 (by omega)⟩
      rw [natChars_ge (by omega), hct, List.cons_append]

theorem digitsNat_append_one (ds : List Char) (d : Char) :
    digitsNat (ds ++ [d]) = digitsNat ds * 10 + digitV d := by
  simp [digitsNat, List.foldl_append]

theorem digitsNat_natChars (n : Nat) : digitsNat (natChars n) = n := by
  induction n using Nat.strongRecOn with
  | _ n ih =>
    rcases Nat.lt_or_ge n 10 with h | h
    · rw [natChars_lt h]
      simp [digitsNat, (digit_char_spec n h).2.1]
    · rw [natChars_ge (by omega), digitsNat_append_one,
        ih (n / 10) (Nat.div_lt_self (by omega) (by omega)),
        (digit_char_spec (n % 10) (Nat.mod_lt _ (by omega))).2.1]
      omega

theorem grabDigits_stop (cs : List Char) (h : digitHead cs = false) :
    grabDigits cs = ([], cs) := by
  cases cs with
  | nil => rfl
  | cons c t =>
    rw [digitHead] at h
    simp [grabDigits, h]

theorem grabDigits_run (ds tl : List Char)
    (hds : ∀ c ∈ ds, isDigitC c = true) (h : digitHead tl = false) :
    grabDigits (ds ++ tl) = (ds, tl) := by
  induction ds with
  | nil =>
    rw [List.nil_append]
    exact grabDigits_stop tl h
  | cons c t ih =>
    have hc : isDigitC c = true := hds c (by simp)
    rw [List.cons_append, grabDigits]
    simp only [hc, if_true]
    rw [ih (fun x hx => hds x (by simp [hx]))]

theorem digit_ne_minus {c : Char} (h : isDigitC c = true) : ¬c = '-' :=
  fun heq => absurd (heq ▸ h) (by decide)

theorem digit_not_ws {c : Char} (h : isDigitC c = true) : isWSChar c = false := by
  have h0 : ¬c = ' ' := fun he => absurd (he ▸ h) (by decide)
  have h2 : ¬c = '\t' := fun he => absurd (he ▸ h) (by decide)
  have h3 : ¬c = '\n' := fun he => absurd (he ▸ h) (by decide)
  have h4 : ¬c = '\r' := fun he => absurd (he ▸ h) (by decide)
  simp [isWSChar, h0, h2, h3, h4]

theorem parseNatTok_natChars (n : Nat) (rest : List Char)
    (h : digitHead rest = false) :
    parseNatTok (natChars n ++ rest) = some (n, rest) := by
  by_cases h0 : n = 0
  · subst h0
    rw [natChars_lt (by omega)]
    rcases rest with _ | ⟨d, rest⟩
    · rfl
    · rw [digitHead] at h
      show parseNatTok ('0' :: d :: rest) = _
      rw [parseNatTok.eq_def]
      simp [h, show isDigitC '0' = true from rfl]
  · obtain ⟨c, t, hct, hcd, hc0⟩ := natChars_head n
    rw [hct, List.cons_append, parseNatTok.eq_def]
    dsimp only
    rw [if_pos hcd, if_neg (hc0 h0)]
    have hgrab := grabDigits_run t rest
      (fun x hx => natChars_all_digits n x (by rw [hct]; simp [hx])) h
    simp only [hgrab]
    rw [show c :: t = natChars n from hct.symm, digitsNat_natChars]

theorem parseIntTok_cons_not_neg {c : Char} (cs : List Char) (h : ¬c = '-') :
    parseIntTok (c :: cs) =
      match parseNatTok (c :: cs) with
      | some (n, r) => some ((n : Int), r)
      | none => none := by
  rw [parseIntTok.eq_def]
  split
  · rename_i heq
    rw [List.cons.injEq] at heq
    exact absurd heq.1 h
  · rfl

theorem parseIntTok_intChars (i : Int) (rest : List Char)
    (h : digitHead rest = false) :
    parseIntTok (intChars i ++ rest) = some (i, rest) := by
  by_cases hneg : i < 0
  · rw [intChars, if_pos hneg, List.cons_append, parseIntTok,
      parseNatTok_natChars _ _ h]
    dsimp only
    rw [show (-(i.natAbs : Int)) = i by omega]
  · rw [intChars, if_neg hneg]
    obtain ⟨c, t, hct, hcd, _⟩ := natChars_head i.natAbs
    rw [hct, List.cons_append, parseIntTok_cons_not_neg _ (digit_ne_minus hcd),
      ← List.cons_append, ← hct, parseNatTok_natChars _ _ h]
    dsimp only
    rw [show ((i.natAbs : Int)) = i by omega]

/-!
### String codec lemmas
-/

theorem hexDigVal_hexDig (n : Nat) (h : n < 16) : hexDigVal (hexDig n) = some n := by
  interval_cases n <;> decide

theorem parseStrBody_esc (c : Char) (rest : List Char) :
    parseStrBody (escChar c ++ rest) =
      match parseStrBody rest with
      | some (s, r) => some (c :: s, r)
      | none => none := by
  by_cases h1 : c = '"'
  · subst h1
    show parseStrBody ('\\' :: '"' :: rest) = _
    rw [parseStrBody.eq_def]
    dsimp only
    rw [if_neg (by decide), if_pos rfl, if_neg (by decide)]
    dsimp only [escDecode]
    rcases h0 : parseStrBody rest with _ | ⟨s0, r0⟩ <;> rfl
  by_cases h2 : c = '\\'
  · subst h2
    show parseStrBody ('\\' :: '\\' :: rest) = _
    rw [parseStrBody.eq_def]
    dsimp only
    rw [if_neg (by decide), if_pos rfl, if_neg (by decide)]
    dsimp only [escDecode]
    rcases h0 : parseStrBody rest with _ | ⟨s0, r0⟩ <;> rfl
  by_cases h3 : c = '\n'
  · subst h3
    show parseStrBody ('\\' :: 'n' :: rest) = _
    rw [parseStrBody.eq_def]
    dsimp only
    rw [if_neg (by decide), if_pos rfl, if_neg (by decide)]
    dsimp only [escDecode]
    rcases h0 : parseStrBody rest with _ | ⟨s0, r0⟩ <;> rfl
  by_cases h4 : c = '\r'
  · subst h4
    show parseStrBody ('\\' :: 'r' :: rest) = _
    rw [parseStrBody.eq_def]
    dsimp only
    rw [if_neg (by decide), if_pos rfl, if_neg (by decide)]
    dsimp only [escDecode]
    rcases h0 : parseStrBody rest with _ | ⟨s0, r0⟩ <;> rfl
  by_cases h5 : c = '\t'
  · subst h5
    show parseStrBody ('\\' :: 't' :: rest) = _
    rw [parseStrBody.eq_def]
    dsimp only
    rw [if_neg (by decide), if_pos rfl, if_neg (by decide)]
    dsimp only [escDecode]
    rcases h0 : parseStrBody rest with _ | ⟨s0, r0⟩ <;> rfl
  by_cases h6 : c.toNat < 32
  · rw [escChar, if_neg h1, if_neg h2, if_neg h3, if_neg h4, if_neg h5, if_pos h6]
    show parseStrBody ('\\' :: 'u' :: '0' :: '0' :: hexDig (c.toNat / 16) ::
      hexDig (c.toNat % 16) :: rest) = _
    rw [parseStrBody.eq_def]
    dsimp only
    rw [if_neg (by decide), if_pos rfl, if_pos rfl]
    rw [show hexDigVal '0' = some 0 from rfl,
      hexDigVal_hexDig (c.toNat / 16) (by omega),
      hexDigVal_hexDig (c.toNat % 16) (by omega)]
    dsimp only
    rw [show ((0 * 16 + 0) * 16 + c.toNat / 16) * 16 + c.toNat % 16 = c.toNat by
      omega]
    rw [Char.ofNat_toNat]
  · rw [escChar, if_neg h1, if_neg h2, if_neg h3, if_neg h4, if_neg h5, if_neg h6,
      List.singleton_append, parseStrBody.eq_def]
    dsimp only
    rw [if_neg h1, if_neg h2, if_neg h6]

theorem parseStrBody_escBody (s rest : List Char) :
    parseStrBody (s.flatMap escChar ++ '"' :: rest) = some (s, rest) := by
  induction s with
  | nil =>
    rw [List.flatMap_nil, List.nil_append, parseStrBody.eq_def]
    dsimp only
    rw [if_pos rfl]
  | cons c s ih =>
    rw [List.flatMap_cons, List.append_assoc, parseStrBody_esc, ih]

theorem parseStrBody_bs : parseStrBody ['\\'] = none := rfl

theorem parseStrBody_bsu : parseStrBody ['\\', 'u'] = none := rfl

/-- No proper prefix of a two-character escape parses. -/
theorem parseStrBody_pfx_esc2 (x : Char) :
    ∀ p (b : Char) t, ('\\' :: [x]) = p ++ b :: t → parseStrBody p = none := by
  intro p b t h
  rcases p with _ | ⟨a1, p⟩
  · rfl
  · rw [List.cons_append] at h
    injection h with ha1 h
    subst ha1
    rcases p with _ | ⟨a2, p⟩
    · exact parseStrBody_bs
    · rw [List.cons_append] at h
      injection h with ha2 h
      exact absurd h.symm (by simp)

/-- No proper prefix of a `\u00XY` escape parses. -/
theorem parseStrBody_pfx_esc6 (d1 d2 : Char) :
    ∀ p (b : Char) t, ['\\', 'u', '0', '0', d1, d2] = p ++ b :: t →
    parseStrBody p = none := by
  intro p b t h
  rcases p with _ | ⟨a1, p⟩
  · rfl
  rw [List.cons_append] at h
  injection h with ha1 h
  subst ha1
  rcases p with _ | ⟨a2, p⟩
  · exact parseStrBody_bs
  rw [List.cons_append] at h
  injection h with ha2 h
  subst ha2
  rcases p with _ | ⟨a3, p⟩
  · exact parseStrBody_bsu
  rw [List.cons_append] at h
  injection h with ha3 h
  subst ha3
  rcases p with _ | ⟨a4, p⟩
  · rfl
  rw [List.cons_append] at h
  injection h with ha4 h
  subst ha4
  rcases p with _ | ⟨a5, p⟩
  · rfl
  rw [List.cons_append] at h
  injection h with ha5 h
  subst ha5
  rcases p with _ | ⟨a6, p⟩
  · rfl
  rw [List.cons_append] at h
  injection h with ha6 h
  exact absurd h.symm (by simp)

/-- No proper prefix of an escaped string body (with its closing quote)
parses as a complete string body. -/
theorem parseStrBody_pfx (s : List Char) : ∀ p q,
    p ++ q = s.flatMap escChar ++ ['"'] → q ≠ [] → parseStrBody p = none := by
  induction s with
  | nil =>
    intro p q hpq hq
    rcases p with _ | ⟨a, p⟩
    · rfl
    · rw [List.flatMap_nil, List.nil_append, List.cons_append] at hpq
      injection hpq with ha htail
      rcases List.append_eq_nil.mp htail with ⟨rfl, rfl⟩
      exact absurd rfl hq
  | cons c s ih =>
    intro p q hpq hq
    rw [List.flatMap_cons, List.append_assoc] at hpq
    rcases List.append_eq_append_iff.mp hpq with ⟨t, ht1, ht2⟩ | ⟨t, ht1, ht2⟩
    · rcases t with _ | ⟨b, t⟩
      · rw [List.append_nil] at ht1
        rw [← ht1,
          show (escChar c : List Char) = escChar c ++ [] from
            (List.append_nil _).symm,
          parseStrBody_esc]
        rfl
      · by_cases h1 : c = '"'
        · subst h1
          exact parseStrBody_pfx_esc2 _ p b t ht1
        by_cases h2 : c = '\\'
        · subst h2
          exact parseStrBody_pfx_esc2 _ p b t ht1
        by_cases h3 : c = '\n'
        · subst h3
          exact parseStrBody_pfx_esc2 _ p b t ht1
        by_cases h4 : c = '\r'
        · subst h4
          exact parseStrBody_pfx_esc2 _ p b t ht1
        by_cases h5 : c = '\t'
        · subst h5
          exact parseStrBody_pfx_esc2 _ p b t ht1
        by_cases h6 : c.toNat < 32
        · rw [escChar, if_neg h1, if_neg h2, if_neg h3, if_neg h4, if_neg h5,
            if_pos h6] at ht1
          exact parseStrBody_pfx_esc6 _ _ p b t ht1
        · rw [escChar, if_neg h1, if_neg h2, if_neg h3, if_neg h4, if_neg h5,
            if_neg h6] at ht1
          rcases p with _ | ⟨a1, p⟩
          · rfl
          · rw [List.cons_append] at ht1
            injection ht1 with ha1 ht1
            exact absurd ht1.symm (by simp)
    · rw [ht1, parseStrBody_esc, ih t q ht2.symm hq]

/-!
### Serialization shape lemmas
-/

theorem encodeV_head (v : JVal) :
    ∃ c t, encodeV v = c :: t ∧ isWSChar c = false ∧ ¬c = ']' ∧ ¬c = '}' := by
  cases v with
  | null => refine ⟨'n', _, rfl, ?_, ?_, ?_⟩ <;> decide
  | bool b =>
    cases b with
    | true => refine ⟨'t', _, rfl, ?_, ?_, ?_⟩ <;> decide
    | false => refine ⟨'f', _, rfl, ?_, ?_, ?_⟩ <;> decide
  | int n =>
    by_cases hneg : n < 0
    · refine ⟨'-', _, by rw [show encodeV (.int n) = intChars n from rfl,
        intChars, if_pos hneg], ?_, ?_, ?_⟩ <;> decide
    · obtain ⟨c, t, hct, hcd, _⟩ := natChars_head n.natAbs
      refine ⟨c, t, by rw [show encodeV (.int n) = intChars n from rfl,
          intChars, if_neg hneg, hct], digit_not_ws hcd, ?_, ?_⟩ <;>
        exact fun he => absurd (he ▸ hcd) (by decide)
  | str s => refine ⟨'"', _, rfl, ?_, ?_, ?_⟩ <;> decide
  | arr vs => refine ⟨'[', _, rfl, ?_, ?_, ?_⟩ <;> decide
  | obj ps => refine ⟨'{', _, rfl, ?_, ?_, ?_⟩ <;> decide

theorem skipWS_encodeV (v : JVal) (x : List Char) :
    skipWS (encodeV v ++ x) = encodeV v ++ x := by
  obtain ⟨c, t, hct, hws, _, _⟩ := encodeV_head v
  rw [hct, List.cons_append, skipWS_cons_not_ws hws]

theorem intChars_shape (i : Int) :
    ∃ c t, intChars i = c :: t ∧ isWSChar c = false ∧
      ¬c = 'n' ∧ ¬c = 't' ∧ ¬c = 'f' ∧ ¬c = '"' ∧ ¬c = '[' ∧ ¬c = '{' := by
  by_cases hneg : i < 0
  · refine ⟨'-', _, by rw [intChars, if_pos hneg], ?_, ?_, ?_, ?_, ?_, ?_, ?_⟩ <;>
      decide
  · obtain ⟨c, t, hct, hcd, _⟩ := natChars_head i.natAbs
    refine ⟨c, t, by rw [intChars, if_neg hneg, hct], digit_not_ws hcd,
      ?_, ?_, ?_, ?_, ?_, ?_⟩ <;>
      exact fun he => absurd (he ▸ hcd) (by decide)

theorem encodeItems_split (v : JVal) (vs : List JVal) :
    ∃ x, encodeItems (v :: vs) = encodeV v ++ x ∧
      (vs = [] → x = []) ∧
      (∀ a as, vs = a :: as → x = ',' :: encodeItems vs) := by
  cases vs with
  | nil =>
    exact ⟨[], by simp [encodeItems], fun _ => rfl,
      fun a as h => absurd h.symm (List.cons_ne_nil a as)⟩
  | cons a as =>
    exact ⟨',' :: encodeItems (a :: as), rfl,
      fun h => absurd h (List.cons_ne_nil a as), fun _ _ _ => rfl⟩

theorem encodePairs_split (k : List Char) (v : JVal)
    (ps : List (List Char × JVal)) :
    ∃ x, encodePairs ((k, v) :: ps) =
      '"' :: (k.flatMap escChar ++ '"' :: (':' :: (encodeV v ++ x))) ∧
      (ps = [] → x = []) ∧
      (∀ q qs, ps = q :: qs → x = ',' :: encodePairs ps) := by
  cases ps with
  | nil =>
    refine ⟨[], ?_, fun _ => rfl,
      fun q qs h => absurd h.symm (List.cons_ne_nil q qs)⟩
    simp [encodePairs, List.append_assoc]
  | cons q qs =>
    refine ⟨',' :: encodePairs (q :: qs), ?_,
      fun h => absurd h (List.cons_ne_nil q qs), fun _ _ _ => rfl⟩
    simp [encodePairs, List.append_assoc]

theorem digitHead_not (c : Char) (t : List Char) (h : isDigitC c = false) :
    digitHead (c :: t) = false := h

/-!
### Round trip: parsing an encoded value
-/

mutual

theorem rtVal : ∀ (v : JVal) (fuel : Nat) (rest : List Char),
    (encodeV v).length < fuel → digitHead rest = false →
    parseVal fuel (encodeV v ++ rest) = some (v, rest)
  | .null, fuel, rest, hf, _ => by
    obtain ⟨f, rfl⟩ : ∃ f, fuel = f + 1 := ⟨fuel - 1, by omega⟩
    show parseVal (f + 1) ('n' :: 'u' :: 'l' :: 'l' :: rest) = _
    rw [parseVal.eq_def]
    dsimp only
    rw [skipWS_cons_not_ws (by decide)]
    dsimp only
    rw [if_pos rfl]
    rfl
  | .bool true, fuel, rest, hf, _ => by
    obtain ⟨f, rfl⟩ : ∃ f, fuel = f + 1 := ⟨fuel - 1, by omega⟩
    show parseVal (f + 1) ('t' :: 'r' :: 'u' :: 'e' :: rest) = _
    rw [parseVal.eq_def]
    dsimp only
    rw [skipWS_cons_not_ws (by decide)]
    dsimp only
    rw [if_neg (by decide), if_pos rfl]
    rfl
  | .bool false, fuel, rest, hf, _ => by
    obtain ⟨f, rfl⟩ : ∃ f, fuel = f + 1 := ⟨fuel - 1, by omega⟩
    show parseVal (f + 1) ('f' :: 'a' :: 'l' :: 's' :: 'e' :: rest) = _
    rw [parseVal.eq_def]
    dsimp only
    rw [skipWS_cons_not_ws (by decide)]
    dsimp only
    rw [if_neg (by decide), if_neg (by decide), if_pos rfl]
    rfl
  | .int i, fuel, rest, hf, hrest => by
    obtain ⟨f, rfl⟩ : ∃ f, fuel = f + 1 := ⟨fuel - 1, by omega⟩
    obtain ⟨c, t, hct, hws, h1, h2, h3, h4, h5, h6⟩ := intChars_shape i
    show parseVal (f + 1) (intChars i ++ rest) = _
    rw [hct, List.cons_append, parseVal.eq_def]
    dsimp only
    rw [skipWS_cons_not_ws hws]
    dsimp only
    rw [if_neg h1, if_neg h2, if_neg h3, if_neg h4, if_neg h5, if_neg h6,
      ← List.cons_append, ← hct, parseIntTok_intChars i rest hrest]
  | .str s, fuel, rest, hf, _ => by
    obtain ⟨f, rfl⟩ : ∃ f, fuel = f + 1 := ⟨fuel - 1, by omega⟩
    show parseVal (f + 1) ('"' :: (s.flatMap escChar ++ ['"']) ++ rest) = _
    rw [List.cons_append, parseVal.eq_def]
    dsimp only
    rw [skipWS_cons_not_ws (by decide)]
    dsimp only
    rw [if_neg (by decide), if_neg (by decide), if_neg (by decide), if_pos rfl,
      List.append_assoc, List.singleton_append, parseStrBody_escBody]
  | .arr [], fuel, rest, hf, _ => by
    obtain ⟨f, rfl⟩ : ∃ f, fuel = f + 1 := ⟨fuel - 1, by omega⟩
    show parseVal (f + 1) ('[' :: ']' :: rest) = _
    rw [parseVal.eq_def]
    dsimp only
    rw [skipWS_cons_not_ws (by decide)]
    dsimp only
    rw [if_neg (by decide), if_neg (by decide), if_neg (by decide),
      if_neg (by decide), if_pos rfl, skipWS_cons_not_ws (by decide)]
    dsimp only
    rw [if_pos rfl]
  | .arr (v :: vs), fuel, rest, hf, _ => by
    obtain ⟨f, rfl⟩ : ∃ f, fuel = f + 1 := ⟨fuel - 1, by omega⟩
    obtain ⟨x, hx, _, _⟩ := encodeItems_split v vs
    obtain ⟨c0, t0, hc0, hws0, hbr0, hbb0⟩ := encodeV_head v
    show parseVal (f + 1) ('[' :: (encodeItems (v :: vs) ++ [']']) ++ rest) = _
    rw [List.cons_append, parseVal.eq_def]
    dsimp only
    rw [skipWS_cons_not_ws (by decide)]
    dsimp only
    rw [if_neg (by decide), if_neg (by decide), if_neg (by decide),
      if_neg (by decide), if_pos rfl]
    have harg : encodeItems (v :: vs) ++ [']'] ++ rest =
        c0 :: (t0 ++ (x ++ (']' :: rest))) := by
      rw [hx, hc0]
      simp [List.append_assoc]
    rw [harg, skipWS_cons_not_ws hws0]
    dsimp only
    rw [if_neg hbr0, ← harg, List.append_assoc, List.singleton_append]
    have hlen : (encodeItems (v :: vs)).length + 1 < f := by
      have h2 : (encodeV (.arr (v :: vs))).length =
          (encodeItems (v :: vs)).length + 2 := by
        show ('[' :: (encodeItems (v :: vs) ++ [']'])).length = _
        simp
      omega
    rw [rtItems v vs f rest hlen]
  | .obj [], fuel, rest, hf, _ => by
    obtain ⟨f, rfl⟩ : ∃ f, fuel = f + 1 := ⟨fuel - 1, by omega⟩
    show parseVal (f + 1) ('{' :: '}' :: rest) = _
    rw [parseVal.eq_def]
    dsimp only
    rw [skipWS_cons_not_ws (by decide)]
    dsimp only
    rw [if_neg (by decide), if_neg (by decide), if_neg (by decide),
      if_neg (by decide), if_neg (by decide), if_pos rfl,
      skipWS_cons_not_ws (by decide)]
    dsimp only
    rw [if_pos rfl]
  | .obj ((k, v) :: ps), fuel, rest, hf, _ => by
    obtain ⟨f, rfl⟩ : ∃ f, fuel = f + 1 := ⟨fuel - 1, by omega⟩
    show parseVal (f + 1) ('{' :: (encodePairs ((k, v) :: ps) ++ ['}']) ++ rest) = _
    rw [List.cons_append, parseVal.eq_def]
    dsimp only
    rw [skipWS_cons_not_ws (by decide)]
    dsimp only
    rw [if_neg (by decide), if_neg (by decide), if_neg (by decide),
      if_neg (by decide), if_neg (by decide), if_pos rfl]
    obtain ⟨x, hx, _, _⟩ := encodePairs_split k v ps
    have harg : encodePairs ((k, v) :: ps) ++ ['}'] ++ rest =
        '"' :: ((k.flatMap escChar ++ '"' :: (':' :: (encodeV v ++ x)))
          ++ ('}' :: rest)) := by
      rw [hx]
      simp [List.append_assoc]
    rw [harg, skipWS_cons_not_ws (by decide)]
    dsimp only
    rw [if_neg (by decide), ← harg, List.append_assoc, List.singleton_append]
    have hlen : (encodePairs ((k, v) :: ps)).length + 1 < f := by
      have h2 : (encodeV (.obj ((k, v) :: ps))).length =
          (encodePairs ((k, v) :: ps)).length + 2 := by
        show ('{' :: (encodePairs ((k, v) :: ps) ++ ['}'])).length = _
        simp
      omega
    rw [rtPairs k v ps f rest hlen]
  termination_by v _ _ _ _ => sizeOf v
  decreasing_by all_goals first
    | (subst_vars; simp_wf; omega)
    | (subst_vars; simp_wf)

theorem rtItems : ∀ (v : JVal) (vs : List JVal) (fuel : Nat) (rest : List Char),
    (encodeItems (v :: vs)).length + 1 < fuel →
    parseItems fuel (encodeItems (v :: vs) ++ ']' :: rest) = some (v :: vs, rest)
  | v, [], fuel, rest, hf => by
    obtain ⟨f, rfl⟩ : ∃ f, fuel = f + 1 := ⟨fuel - 1, by omega⟩
    rw [show encodeItems [v] = encodeV v from rfl] at hf ⊢
    rw [parseItems.eq_def]
    dsimp only
    rw [rtVal v f (']' :: rest) (by omega) (digitHead_not _ _ (by decide))]
    dsimp only
    rw [skipWS_cons_not_ws (by decide)]
    dsimp only
    rw [if_neg (by decide), if_pos rfl]
  | v, x :: xs, fuel, rest, hf => by
    obtain ⟨f, rfl⟩ : ∃ f, fuel = f + 1 := ⟨fuel - 1, by omega⟩
    have hsplit : encodeItems (v :: x :: xs) ++ ']' :: rest =
        encodeV v ++ (',' :: (encodeItems (x :: xs) ++ ']' :: rest)) := by
      rw [show encodeItems (v :: x :: xs) =
        encodeV v ++ ',' :: encodeItems (x :: xs) from rfl]
      simp [List.append_assoc]
    have hlen : (encodeItems (v :: x :: xs)).length =
        (encodeV v).length + 1 + (encodeItems (x :: xs)).length := by
      rw [show encodeItems (v :: x :: xs) =
        encodeV v ++ ',' :: encodeItems (x :: xs) from rfl]
      simp
      omega
    rw [hsplit, parseItems.eq_def]
    dsimp only
    rw [rtVal v f (',' :: (encodeItems (x :: xs) ++ ']' :: rest))
      (by omega) (digitHead_not _ _ (by decide))]
    dsimp only
    rw [skipWS_cons_not_ws (by decide)]
    dsimp only
    rw [if_pos rfl, rtItems x xs f rest (by omega)]
  termination_by v vs _ _ _ => sizeOf v + sizeOf vs
  decreasing_by all_goals first
    | (subst_vars; simp_wf; omega)
    | (subst_vars; simp_wf)

theorem rtPairs : ∀ (k : List Char) (v : JVal) (ps : List (List Char × JVal))
    (fuel : Nat) (rest : List Char),
    (encodePairs ((k, v) :: ps)).length + 1 < fuel →
    parsePairs fuel (encodePairs ((k, v) :: ps) ++ '}' :: rest) =
      some ((k, v) :: ps, rest)
  | k, v, [], fuel, rest, hf => by
    obtain ⟨f, rfl⟩ : ∃ f, fuel = f + 1 := ⟨fuel - 1, by omega⟩
    have hstep : encodePairs [(k, v)] =
        ('"' :: (k.flatMap escChar ++ ['"'])) ++ ':' :: encodeV v := rfl
    have hlen : (encodePairs [(k, v)]).length =
        (k.flatMap escChar).length + 3 + (encodeV v).length := by
      rw [hstep]
      simp
      omega
    have hsplit : encodePairs [(k, v)] ++ '}' :: rest =
        '"' :: (k.flatMap escChar ++ '"' :: (':' :: (encodeV v ++ '}' :: rest))) := by
      rw [hstep]
      simp [List.append_assoc]
    rw [hsplit, parsePairs.eq_def]
    dsimp only
    rw [skipWS_cons_not_ws (by decide)]
    dsimp only
    rw [if_pos rfl, parseStrBody_escBody]
    dsimp only
    rw [skipWS_cons_not_ws (by decide)]
    dsimp only
    rw [if_pos rfl,
      rtVal v f ('}' :: rest) (by omega) (digitHead_not _ _ (by decide))]
    dsimp only
    rw [skipWS_cons_not_ws (by decide)]
    dsimp only
    rw [if_neg (by decide), if_pos rfl]
  | k, v, (k2, v2) :: qs, fuel, rest, hf => by
    obtain ⟨f, rfl⟩ : ∃ f, fuel = f + 1 := ⟨fuel - 1, by omega⟩
    have hstep : encodePairs ((k, v) :: (k2, v2) :: qs) =
        (('"' :: (k.flatMap escChar ++ ['"'])) ++ ':' :: encodeV v) ++
          ',' :: encodePairs ((k2, v2) :: qs) := rfl
    have hlen : (encodePairs ((k, v) :: (k2, v2) :: qs)).length =
        (k.flatMap escChar).length + 4 + (encodeV v).length +
          (encodePairs ((k2, v2) :: qs)).length := by
      rw [hstep]
      simp
      omega
    have hsplit : encodePairs ((k, v) :: (k2, v2) :: qs) ++ '}' :: rest =
        '"' :: (k.flatMap escChar ++ '"' :: (':' :: (encodeV v ++
          ',' :: (encodePairs ((k2, v2) :: qs) ++ '}' :: rest)))) := by
      rw [hstep]
      simp [List.append_assoc]
    rw [hsplit, parsePairs.eq_def]
    dsimp only
    rw [skipWS_cons_not_ws (by decide)]
    dsimp only
    rw [if_pos rfl, parseStrBody_escBody]
    dsimp only
    rw [skipWS_cons_not_ws (by decide)]
    dsimp only
    rw [if_pos rfl,
      rtVal v f (',' :: (encodePairs ((k2, v2) :: qs) ++ '}' :: rest))
        (by omega) (digitHead_not _ _ (by decide))]
    dsimp only
    rw [skipWS_cons_not_ws (by decide)]
    dsimp only
    rw [if_pos rfl, rtPairs k2 v2 qs f rest (by omega)]
  termination_by k v ps _ _ _ => sizeOf v + sizeOf ps
  decreasing_by all_goals first
    | (subst_vars; simp_wf; omega)
    | (subst_vars; simp_wf)

end

/-!
### Prefix-freeness: no proper prefix of an encoded object parses

A proper prefix of a rendered number still parses (as a shorter number,
with nothing left over), but a proper prefix of any other encoded value
— and in particular of an encoded object — fails outright. This is what
makes the speculative `json.loads` loop sound on compact object texts.
-/

theorem grabDigits_all (ds : List Char) (hds : ∀ c ∈ ds, isDigitC c = true) :
    grabDigits ds = (ds, []) := by
  have h := grabDigits_run ds [] hds rfl
  simpa using h

theorem parseNatTok_pfx (n : Nat) : ∀ p q, p ++ q = natChars n → q ≠ [] →
    parseNatTok p = none ∨ ∃ m, parseNatTok p = some (m, []) := by
  intro p q hpq hq
  rcases p with _ | ⟨d, ds⟩
  · exact Or.inl rfl
  obtain ⟨c, t, hct, hcd, hc0⟩ := natChars_head n
  rw [hct, List.cons_append] at hpq
  injection hpq with hdc hdst
  subst hdc
  by_cases h0 : n = 0
  · subst h0
    rw [natChars_lt (by omega)] at hct
    injection hct with hc1 ht
    rw [← ht] at hdst
    rcases List.append_eq_nil.mp hdst with ⟨rfl, rfl⟩
    exact absurd rfl hq
  · refine Or.inr ⟨digitsNat (d :: ds), ?_⟩
    have hdig : ∀ x ∈ ds, isDigitC x = true := by
      intro x hx
      refine natChars_all_digits n x ?_
      rw [hct]
      exact List.mem_cons_of_mem _ (hdst ▸ List.mem_append_left q hx)
    rw [parseNatTok.eq_def]
    dsimp only
    rw [if_pos hcd, if_neg (hc0 h0)]
    simp only [grabDigits_all ds hdig]

theorem parseIntTok_pfx (i : Int) : ∀ p q, p ++ q = intChars i → q ≠ [] →
    parseIntTok p = none ∨ ∃ m : Int, parseIntTok p = some (m, []) := by
  intro p q hpq hq
  by_cases hneg : i < 0
  · rw [intChars, if_pos hneg] at hpq
    rcases p with _ | ⟨a, p1⟩
    · exact Or.inl rfl
    rw [List.cons_append] at hpq
    injection hpq with ha ht
    subst ha
    rcases parseNatTok_pfx i.natAbs p1 q ht hq with hn | ⟨m, hm⟩
    · refine Or.inl ?_
      rw [parseIntTok, hn]
    · refine Or.inr ⟨-(m : Int), ?_⟩
      rw [parseIntTok, hm]
  · rw [intChars, if_neg hneg] at hpq
    rcases p with _ | ⟨a, p1⟩
    · exact Or.inl rfl
    obtain ⟨c, t, hct, hcd, hc0⟩ := natChars_head i.natAbs
    have hpq2 := hpq
    rw [hct, List.cons_append] at hpq2
    injection hpq2 with ha ht
    subst ha
    rcases parseNatTok_pfx i.natAbs (a :: p1) q hpq hq with hn | ⟨m, hm⟩
    · refine Or.inl ?_
      rw [parseIntTok_cons_not_neg _ (digit_ne_minus hcd), hn]
    · refine Or.inr ⟨(m : Int), ?_⟩
      rw [parseIntTok_cons_not_neg _ (digit_ne_minus hcd), hm]

mutual

theorem pfxVal : ∀ (v : JVal) (fuel : Nat) (p q : List Char),
    p ++ q = encodeV v → q ≠ [] → 2 * p.length + 2 ≤ fuel →
    parseVal fuel p = none ∨ ∃ w, parseVal fuel p = some (w, [])
  | .null, fuel, p, q, h, hq, hf => by
    obtain ⟨f, rfl⟩ : ∃ f, fuel = f + 1 := ⟨fuel - 1, by omega⟩
    have h' : p ++ q = ['n', 'u', 'l', 'l'] := h
    rcases p with _ | ⟨c1, p⟩
    · exact Or.inl rfl
    rw [List.cons_append] at h'
    injection h' with h1 h'
    subst h1
    rcases p with _ | ⟨c2, p⟩
    · exact Or.inl rfl
    rw [List.cons_append] at h'
    injection h' with h1 h'
    subst h1
    rcases p with _ | ⟨c3, p⟩
    · exact Or.inl rfl
    rw [List.cons_append] at h'
    injection h' with h1 h'
    subst h1
    rcases p with _ | ⟨c4, p⟩
    · exact Or.inl rfl
    rw [List.cons_append] at h'
    injection h' with h1 h'
    exact absurd (List.append_eq_nil.mp h').2 hq
  | .bool true, fuel, p, q, h, hq, hf => by
    obtain ⟨f, rfl⟩ : ∃ f, fuel = f + 1 := ⟨fuel - 1, by omega⟩
    have h' : p ++ q = ['t', 'r', 'u', 'e'] := h
    rcases p with _ | ⟨c1, p⟩
    · exact Or.inl rfl
    rw [List.cons_append] at h'
    injection h' with h1 h'
    subst h1
    rcases p with _ | ⟨c2, p⟩
    · exact Or.inl rfl
    rw [List.cons_append] at h'
    injection h' with h1 h'
    subst h1
    rcases p with _ | ⟨c3, p⟩
    · exact Or.inl rfl
    rw [List.cons_append] at h'
    injection h' with h1 h'
    subst h1
    rcases p with _ | ⟨c4, p⟩
    · exact Or.inl rfl
    rw [List.cons_append] at h'
    injection h' with h1 h'
    exact absurd (List.append_eq_nil.mp h').2 hq
  | .bool false, fuel, p, q, h, hq, hf => by
    obtain ⟨f, rfl⟩ : ∃ f, fuel = f + 1 := ⟨fuel - 1, by omega⟩
    have h' : p ++ q = ['f', 'a', 'l', 's', 'e'] := h
    rcases p with _ | ⟨c1, p⟩
    · exact Or.inl rfl
    rw [List.cons_append] at h'
    injection h' with h1 h'
    subst h1
    rcases p with _ | ⟨c2, p⟩
    · exact Or.inl rfl
    rw [List.cons_append] at h'
    injection h' with h1 h'
    subst h1
    rcases p with _ | ⟨c3, p⟩
    · exact Or.inl rfl
    rw [List.cons_append] at h'
    injection h' with h1 h'
    subst h1
    rcases p with _ | ⟨c4, p⟩
    · exact Or.inl rfl
    rw [List.cons_append] at h'
    injection h' with h1 h'
    subst h1
    rcases p with _ | ⟨c5, p⟩
    · exact Or.inl rfl
    rw [List.cons_append] at h'
    injection h' with h1 h'
    exact absurd (List.append_eq_nil.mp h').2 hq
  | .int i, fuel, p, q, h, hq, hf => by
    obtain ⟨f, rfl⟩ : ∃ f, fuel = f + 1 := ⟨fuel - 1, by omega⟩
    have hfull : p ++ q = intChars i := h
    rcases p with _ | ⟨c, p1⟩
    · exact Or.inl rfl
    obtain ⟨c0, t0, hct, hws, h1, h2, h3, h4, h5, h6⟩ := intChars_shape i
    have hh := hfull
    rw [hct, List.cons_append] at hh
    injection hh with hc ht
    subst hc
    rcases parseIntTok_pfx i (c :: p1) q hfull hq with hnone | ⟨m, hm⟩
    · refine Or.inl ?_
      rw [parseVal.eq_def]
      dsimp only
      rw [skipWS_cons_not_ws hws]
      dsimp only
      rw [if_neg h1, if_neg h2, if_neg h3, if_neg h4, if_neg h5, if_neg h6, hnone]
    · refine Or.inr ⟨.int m, ?_⟩
      rw [parseVal.eq_def]
      dsimp only
      rw [skipWS_cons_not_ws hws]
      dsimp only
      rw [if_neg h1, if_neg h2, if_neg h3, if_neg h4, if_neg h5, if_neg h6, hm]
  | .str s, fuel, p, q, h, hq, hf => by
    obtain ⟨f, rfl⟩ : ∃ f, fuel = f + 1 := ⟨fuel - 1, by omega⟩
    have h' : p ++ q = '"' :: (s.flatMap escChar ++ ['"']) := h
    rcases p with _ | ⟨c1, p1⟩
    · exact Or.inl rfl
    rw [List.cons_append] at h'
    injection h' with hc ht
    subst hc
    refine Or.inl ?_
    rw [parseVal.eq_def]
    dsimp only
    rw [skipWS_cons_not_ws (by decide)]
    dsimp only
    rw [if_neg (by decide), if_neg (by decide), if_neg (by decide), if_pos rfl,
      parseStrBody_pfx s p1 q ht hq]
  | .arr [], fuel, p, q, h, hq, hf => by
    obtain ⟨f, rfl⟩ : ∃ f, fuel = f + 1 := ⟨fuel - 1, by omega⟩
    have h' : p ++ q = ['[', ']'] := h
    rcases p with _ | ⟨c1, p⟩
    · exact Or.inl rfl
    rw [List.cons_append] at h'
    injection h' with h1 h'
    subst h1
    rcases p with _ | ⟨c2, p⟩
    · exact Or.inl rfl
    rw [List.cons_append] at h'
    injection h' with h1 h'
    exact absurd (List.append_eq_nil.mp h').2 hq
  | .arr (v :: vs), fuel, p, q, h, hq, hf => by
    obtain ⟨f, rfl⟩ : ∃ f, fuel = f + 1 := ⟨fuel - 1, by omega⟩
    have h' : p ++ q = '[' :: (encodeItems (v :: vs) ++ [']']) := h
    rcases p with _ | ⟨c1, p1⟩
    · exact Or.inl rfl
    rw [List.cons_append] at h'
    injection h' with h1 ht
    subst h1
    refine Or.inl ?_
    rw [parseVal.eq_def]
    dsimp only
    rw [skipWS_cons_not_ws (by decide)]
    dsimp only
    rw [if_neg (by decide), if_neg (by decide), if_neg (by decide),
      if_neg (by decide), if_pos rfl]
    rcases p1 with _ | ⟨c2, p2⟩
    · rfl
    have hfull := ht
    obtain ⟨x, hx, hxn, hxc⟩ := encodeItems_split v vs
    obtain ⟨c0, t0, hc0, hws0, hbr0, hbb0⟩ := encodeV_head v
    rw [hx, List.append_assoc, hc0, List.cons_append, List.cons_append] at ht
    injection ht with hc ht2
    subst hc
    rw [skipWS_cons_not_ws hws0]
    dsimp only
    rw [if_neg hbr0,
      pfxItems v vs f (c2 :: p2) q hfull hq (by simp at hf; simp; omega)]
  | .obj [], fuel, p, q, h, hq, hf => by
    obtain ⟨f, rfl⟩ : ∃ f, fuel = f + 1 := ⟨fuel - 1, by omega⟩
    have h' : p ++ q = ['{', '}'] := h
    rcases p with _ | ⟨c1, p⟩
    · exact Or.inl rfl
    rw [List.cons_append] at h'
    injection h' with h1 h'
    subst h1
    rcases p with _ | ⟨c2, p⟩
    · exact Or.inl rfl
    rw [List.cons_append] at h'
    injection h' with h1 h'
    exact absurd (List.append_eq_nil.mp h').2 hq
  | .obj ((k, v) :: ps), fuel, p, q, h, hq, hf => by
    obtain ⟨f, rfl⟩ : ∃ f, fuel = f + 1 := ⟨fuel - 1, by omega⟩
    have h' : p ++ q = '{' :: (encodePairs ((k, v) :: ps) ++ ['}']) := h
    rcases p with _ | ⟨c1, p1⟩
    · exact Or.inl rfl
    rw [List.cons_append] at h'
    injection h' with h1 ht
    subst h1
    refine Or.inl ?_
    rw [parseVal.eq_def]
    dsimp only
    rw [skipWS_cons_not_ws (by decide)]
    dsimp only
    rw [if_neg (by decide), if_neg (by decide), if_neg (by decide),
      if_neg (by decide), if_neg (by decide), if_pos rfl]
    rcases p1 with _ | ⟨c2, p2⟩
    · rfl
    have hfull := ht
    obtain ⟨x, hx, hxn, hxc⟩ := encodePairs_split k v ps
    rw [hx, List.cons_append, List.cons_append] at ht
    injection ht with hc ht2
    subst hc
    rw [skipWS_cons_not_ws (by decide)]
    dsimp only
    rw [if_neg (by decide),
      pfxPairs k v ps f ('"' :: p2) q hfull hq (by simp at hf; simp; omega)]
  termination_by v _ _ _ _ _ _ => sizeOf v
  decreasing_by all_goals first
    | (subst_vars; simp_wf; omega)
    | (subst_vars; simp_wf)

theorem pfxItems : ∀ (v : JVal) (vs : List JVal) (fuel : Nat) (p q : List Char),
    p ++ q = encodeItems (v :: vs) ++ [']'] → q ≠ [] →
    2 * p.length + 3 ≤ fuel → parseItems fuel p = none
  | v, [], fuel, p, q, h, hq, hf => by
    obtain ⟨f, rfl⟩ : ∃ f, fuel = f + 1 := ⟨fuel - 1, by omega⟩
    have h' : p ++ q = encodeV v ++ [']'] := h
    rw [parseItems.eq_def]
    dsimp only
    rcases List.append_eq_append_iff.mp h' with ⟨t, ht1, ht2⟩ | ⟨t, ht1, ht2⟩
    · rcases t with _ | ⟨b, t⟩
      · rw [List.append_nil] at ht1
        have hv : parseVal f (encodeV v ++ []) = some (v, []) :=
          rtVal v f [] (by rw [← ht1] at hf; omega) rfl
        rw [List.append_nil, ht1] at hv
        rw [hv]
        rfl
      · rcases pfxVal v f p (b :: t) ht1.symm (List.cons_ne_nil b t) (by omega)
          with hn | ⟨w, hw⟩
        · rw [hn]
        · rw [hw]
          rfl
    · rcases t with _ | ⟨b, t2⟩
      · rw [List.append_nil] at ht1
        subst ht1
        have hv : parseVal f (encodeV v ++ []) = some (v, []) :=
          rtVal v f [] (by omega) rfl
        rw [List.append_nil] at hv
        rw [hv]
        rfl
      · rw [List.cons_append] at ht2
        injection ht2 with hb ht3
        rcases List.append_eq_nil.mp ht3.symm with ⟨rfl, rfl⟩
        exact absurd rfl hq
  | v, a :: as, fuel, p, q, h, hq, hf => by
    obtain ⟨f, rfl⟩ : ∃ f, fuel = f + 1 := ⟨fuel - 1, by omega⟩
    have hstep : encodeItems (v :: a :: as) =
        encodeV v ++ ',' :: encodeItems (a :: as) := rfl
    rw [hstep, List.append_assoc] at h
    rw [parseItems.eq_def]
    dsimp only
    rcases List.append_eq_append_iff.mp h with ⟨t, ht1, ht2⟩ | ⟨t, ht1, ht2⟩
    · rcases t with _ | ⟨b, t⟩
      · rw [List.append_nil] at ht1
        have hv : parseVal f (encodeV v ++ []) = some (v, []) :=
          rtVal v f [] (by rw [← ht1] at hf; omega) rfl
        rw [List.append_nil, ht1] at hv
        rw [hv]
        rfl
      · rcases pfxVal v f p (b :: t) ht1.symm (List.cons_ne_nil b t) (by omega)
          with hn | ⟨w, hw⟩
        · rw [hn]
        · rw [hw]
          rfl
    · rcases t with _ | ⟨b, t2⟩
      · rw [List.append_nil] at ht1
        subst ht1
        have hv : parseVal f (encodeV v ++ []) = some (v, []) :=
          rtVal v f [] (by omega) rfl
        rw [List.append_nil] at hv
        rw [hv]
        rfl
      · rw [List.cons_append, List.cons_append] at ht2
        injection ht2 with hb ht3
        subst hb
        subst ht1
        have hv : parseVal f (encodeV v ++ ',' :: t2) = some (v, ',' :: t2) :=
          rtVal v f (',' :: t2)
            (by simp only [List.length_append, List.length_cons] at hf; omega)
            (digitHead_not _ _ (by decide))
        rw [hv]
        dsimp only
        rw [skipWS_cons_not_ws (by decide)]
        dsimp only
        rw [if_pos rfl,
          pfxItems a as f t2 q ht3.symm hq
            (by simp only [List.length_append, List.length_cons] at hf; omega)]
  termination_by v vs _ _ _ _ _ _ => sizeOf v + sizeOf vs
  decreasing_by all_goals first
    | (subst_vars; simp_wf; omega)
    | (subst_vars; simp_wf)

theorem pfxPairs : ∀ (k : List Char) (v : JVal) (ps : List (List Char × JVal))
    (fuel : Nat) (p q : List Char),
    p ++ q = encodePairs ((k, v) :: ps) ++ ['}'] → q ≠ [] →
    2 * p.length + 3 ≤ fuel → parsePairs fuel p = none
  | k, v, [], fuel, p, q, h, hq, hf => by
    obtain ⟨f, rfl⟩ : ∃ f, fuel = f + 1 := ⟨fuel - 1, by omega⟩
    have hstep : encodePairs [(k, v)] =
        ('"' :: (k.flatMap escChar ++ ['"'])) ++ ':' :: encodeV v := rfl
    rw [hstep] at h
    rcases p with _ | ⟨c1, p1⟩
    · rfl
    have h' : c1 :: (p1 ++ q) =
        '"' :: ((k.flatMap escChar ++ ['"']) ++ (':' :: (encodeV v ++ ['}']))) := by
      rw [← List.cons_append, h]
      simp [List.append_assoc]
    injection h' with hc h'
    subst hc
    rw [parsePairs.eq_def]
    dsimp only
    rw [skipWS_cons_not_ws (by decide)]
    dsimp only
    rw [if_pos rfl]
    rcases List.append_eq_append_iff.mp h' with ⟨t, ht1, ht2⟩ | ⟨t, ht1, ht2⟩
    · rcases t with _ | ⟨b, t⟩
      · rw [List.append_nil] at ht1
        rw [← ht1, parseStrBody_escBody]
        rfl
      · rw [parseStrBody_pfx k p1 (b :: t) ht1.symm (List.cons_ne_nil b t)]
    · rcases t with _ | ⟨b, t2⟩
      · rw [List.append_nil] at ht1
        subst ht1
        rw [parseStrBody_escBody]
        rfl
      · rw [List.cons_append] at ht2
        injection ht2 with hb ht3
        subst hb
        subst ht1
        have hp1 : (k.flatMap escChar ++ ['"']) ++ ':' :: t2 =
            k.flatMap escChar ++ '"' :: (':' :: t2) := by
          simp [List.append_assoc]
        rw [hp1, parseStrBody_escBody]
        dsimp only
        rw [skipWS_cons_not_ws (by decide)]
        dsimp only
        rw [if_pos rfl]
        rcases List.append_eq_append_iff.mp ht3.symm with ⟨u, hu1, hu2⟩ | ⟨u, hu1, hu2⟩
        · rcases u with _ | ⟨b2, u⟩
          · rw [List.append_nil] at hu1
            have hv : parseVal f (encodeV v ++ []) = some (v, []) :=
              rtVal v f []
                (by
                  simp only [List.length_append, List.length_cons,
                    List.length_nil, ← hu1] at hf
                  omega) rfl
            rw [List.append_nil, hu1] at hv
            rw [hv]
            rfl
          · rcases pfxVal v f t2 (b2 :: u) hu1.symm (List.cons_ne_nil b2 u)
              (by
                simp only [List.length_append, List.length_cons,
                  List.length_nil] at hf
                omega)
              with hn | ⟨w, hw⟩
            · rw [hn]
            · rw [hw]
              rfl
        · rcases u with _ | ⟨b2, u2⟩
          · rw [List.append_nil] at hu1
            subst hu1
            have hv : parseVal f (encodeV v ++ []) = some (v, []) :=
              rtVal v f []
                (by
                  simp only [List.length_append, List.length_cons,
                    List.length_nil] at hf
                  omega) rfl
            rw [List.append_nil] at hv
            rw [hv]
            rfl
          · rw [List.cons_append] at hu2
            injection hu2 with hb2 hu3
            rcases List.append_eq_nil.mp hu3.symm with ⟨rfl, rfl⟩
            exact absurd rfl hq
  | k, v, (k2, v2) :: ps2, fuel, p, q, h, hq, hf => by
    obtain ⟨f, rfl⟩ : ∃ f, fuel = f + 1 := ⟨fuel - 1, by omega⟩
    have hstep : encodePairs ((k, v) :: (k2, v2) :: ps2) =
        (('"' :: (k.flatMap escChar ++ ['"'])) ++ ':' :: encodeV v) ++
          ',' :: encodePairs ((k2, v2) :: ps2) := rfl
    rw [hstep] at h
    rcases p with _ | ⟨c1, p1⟩
    · rfl
    have h' : c1 :: (p1 ++ q) =
        '"' :: ((k.flatMap escChar ++ ['"']) ++
          (':' :: (encodeV v ++
            (',' :: (encodePairs ((k2, v2) :: ps2) ++ ['}']))))) := by
      rw [← List.cons_append, h]
      simp [List.append_assoc]
    injection h' with hc h'
    subst hc
    rw [parsePairs.eq_def]
    dsimp only
    rw [skipWS_cons_not_ws (by decide)]
    dsimp only
    rw [if_pos rfl]
    rcases List.append_eq_append_iff.mp h' with ⟨t, ht1, ht2⟩ | ⟨t, ht1, ht2⟩
    · rcases t with _ | ⟨b, t⟩
      · rw [List.append_nil] at ht1
        rw [← ht1, parseStrBody_escBody]
        rfl
      · rw [parseStrBody_pfx k p1 (b :: t) ht1.symm (List.cons_ne_nil b t)]
    · rcases t with _ | ⟨b, t2⟩
      · rw [List.append_nil] at ht1
        subst ht1
        rw [parseStrBody_escBody]
        rfl
      · rw [List.cons_append] at ht2
        injection ht2 with hb ht3
        subst hb
        subst ht1
        have hp1 : (k.flatMap escChar ++ ['"']) ++ ':' :: t2 =
            k.flatMap escChar ++ '"' :: (':' :: t2) := by
          simp [List.append_assoc]
        rw [hp1, parseStrBody_escBody]
        dsimp only
        rw [skipWS_cons_not_ws (by decide)]
        dsimp only
        rw [if_pos rfl]
        rcases List.append_eq_append_iff.mp ht3.symm with ⟨u, hu1, hu2⟩ | ⟨u, hu1, hu2⟩
        · rcases u with _ | ⟨b2, u⟩
          · rw [List.append_nil] at hu1
            have hv : parseVal f (encodeV v ++ []) = some (v, []) :=
              rtVal v f []
                (by
                  simp only [List.length_append, List.length_cons,
                    List.length_nil, ← hu1] at hf
                  omega) rfl
            rw [List.append_nil, hu1] at hv
            rw [hv]
            rfl
          · rcases pfxVal v f t2 (b2 :: u) hu1.symm (List.cons_ne_nil b2 u)
              (by
                simp only [List.length_append, List.length_cons,
                  List.length_nil] at hf
                omega)
              with hn | ⟨w, hw⟩
            · rw [hn]
            · rw [hw]
              rfl
        · rcases u with _ | ⟨b2, u2⟩
          · rw [List.append_nil] at hu1
            subst hu1
            have hv : parseVal f (encodeV v ++ []) = some (v, []) :=
              rtVal v f []
                (by
                  simp only [List.length_append, List.length_cons,
                    List.length_nil] at hf
                  omega) rfl
            rw [List.append_nil] at hv
            rw [hv]
            rfl
          · rw [List.cons_append] at hu2
            injection hu2 with hb2 hu3
            subst hb2
            subst hu1
            have hv : parseVal f (encodeV v ++ ',' :: u2) = some (v, ',' :: u2) :=
              rtVal v f (',' :: u2)
                (by
                  simp only [List.length_append, List.length_cons,
                    List.length_nil] at hf
                  omega)
                (digitHead_not _ _ (by decide))
            rw [hv]
            dsimp only
            rw [skipWS_cons_not_ws (by decide)]
            dsimp only
            rw [if_pos rfl,
              pfxPairs k2 v2 ps2 f u2 q hu3.symm hq
                (by
                  simp only [List.length_append, List.length_cons,
                    List.length_nil] at hf
                  omega)]
  termination_by k v ps _ _ _ _ _ _ => sizeOf v + sizeOf ps
  decreasing_by all_goals first
    | (subst_vars; simp_wf; omega)
    | (subst_vars; simp_wf)

end

/-- No proper prefix of an encoded object parses as a value, at any
sufficient fuel. -/
theorem parseVal_pfx_obj (fs : List (List Char × JVal)) (fuel : Nat)
    (p q : List Char) (h : p ++ q = encodeV (.obj fs)) (hq : q ≠ [])
    (hf : 2 * p.length + 2 ≤ fuel) : parseVal fuel p = none := by
  obtain ⟨f, rfl⟩ : ∃ f, fuel = f + 1 := ⟨fuel - 1, by omega⟩
  rcases fs with _ | ⟨⟨k, v⟩, ps⟩
  · have h' : p ++ q = ['{', '}'] := h
    rcases p with _ | ⟨c1, p⟩
    · rfl
    rw [List.cons_append] at h'
    injection h' with h1 h'
    subst h1
    rcases p with _ | ⟨c2, p⟩
    · rfl
    rw [List.cons_append] at h'
    injection h' with h1 h'
    exact absurd (List.append_eq_nil.mp h').2 hq
  · have h' : p ++ q = '{' :: (encodePairs ((k, v) :: ps) ++ ['}']) := h
    rcases p with _ | ⟨c1, p1⟩
    · rfl
    rw [List.cons_append] at h'
    injection h' with h1 ht
    subst h1
    rw [parseVal.eq_def]
    dsimp only
    rw [skipWS_cons_not_ws (by decide)]
    dsimp only
    rw [if_neg (by decide), if_neg (by decide), if_neg (by decide),
      if_neg (by decide), if_neg (by decide), if_pos rfl]
    rcases p1 with _ | ⟨c2, p2⟩
    · rfl
    have hfull := ht
    obtain ⟨x, hx, hxn, hxc⟩ := encodePairs_split k v ps
    rw [hx, List.cons_append, List.cons_append] at ht
    injection ht with hc ht2
    subst hc
    rw [skipWS_cons_not_ws (by decide)]
    dsimp only
    rw [if_neg (by decide),
      pfxPairs k v ps (f) ('"' :: p2) q hfull hq (by simp at hf; simp; omega)]

/-- The compact serialization round-trips through the model of
`json.loads`. -/
theorem jsonLoads_encodeV (v : JVal) : jsonLoads (encodeV v) = some v := by
  rw [jsonLoads]
  have h := rtVal v (2 * (encodeV v).length + 2) [] (by omega) rfl
  rw [List.append_nil] at h
  rw [h]
  rfl

/-- `json.loads` fails on every proper prefix of an encoded object: the
speculative parse of a partially accumulated object buffer never
succeeds early. -/
theorem jsonLoads_pfx_obj (fs : List (List Char × JVal)) (p q : List Char)
    (h : p ++ q = encodeV (.obj fs)) (hq : q ≠ []) : jsonLoads p = none := by
  rw [jsonLoads, parseVal_pfx_obj fs (2 * p.length + 2) p q h hq (by omega)]

/-!
### Chunking-layer lemmas: `str.strip`, `str.split`, newline freedom
-/

theorem hexDig_ne_nl (n : Nat) (h : n < 16) : hexDig n ≠ '\n' := by
  interval_cases n <;> decide

theorem escChar_no_nl (c x : Char) (hx : x ∈ escChar c) : x ≠ '\n' := by
  rw [escChar] at hx
  by_cases h1 : c = '"'
  · rw [if_pos h1] at hx
    rcases List.mem_cons.mp hx with rfl | hx
    · decide
    rw [List.mem_singleton] at hx
    subst hx
    decide
  rw [if_neg h1] at hx
  by_cases h2 : c = '\\'
  · rw [if_pos h2] at hx
    rcases List.mem_cons.mp hx with rfl | hx
    · decide
    rw [List.mem_singleton] at hx
    subst hx
    decide
  rw [if_neg h2] at hx
  by_cases h3 : c = '\n'
  · rw [if_pos h3] at hx
    rcases List.mem_cons.mp hx with rfl | hx
    · decide
    rw [List.mem_singleton] at hx
    subst hx
    decide
  rw [if_neg h3] at hx
  by_cases h4 : c = '\r'
  · rw [if_pos h4] at hx
    rcases List.mem_cons.mp hx with rfl | hx
    · decide
    rw [List.mem_singleton] at hx
    subst hx
    decide
  rw [if_neg h4] at hx
  by_cases h5 : c = '\t'
  · rw [if_pos h5] at hx
    rcases List.mem_cons.mp hx with rfl | hx
    · decide
    rw [List.mem_singleton] at hx
    subst hx
    decide
  rw [if_neg h5] at hx
  by_cases h6 : c.toNat < 32
  · rw [if_pos h6] at hx
    have d1 := hexDig_ne_nl (c.toNat / 16) (by omega)
    have d2 := hexDig_ne_nl (c.toNat % 16) (by omega)
    rcases List.mem_cons.mp hx with rfl | hx
    · decide
    rcases List.mem_cons.mp hx with rfl | hx
    · decide
    rcases List.mem_cons.mp hx with rfl | hx
    · decide
    rcases List.mem_cons.mp hx with rfl | hx
    · decide
    rcases List.mem_cons.mp hx with rfl | hx
    · exact d1
    rw [List.mem_singleton] at hx
    subst hx
    exact d2
  · rw [if_neg h6] at hx
    rw [List.mem_singleton] at hx
    subst hx
    intro he
    exact absurd (he ▸ h6) (by decide)

theorem flatMap_escChar_no_nl (s : List Char) (x : Char)
    (hx : x ∈ s.flatMap escChar) : x ≠ '\n' := by
  rw [List.mem_flatMap] at hx
  obtain ⟨c, _, hc⟩ := hx
  exact escChar_no_nl c x hc

theorem intChars_no_nl (i : Int) (x : Char) (hx : x ∈ intChars i) : x ≠ '\n' := by
  rw [intChars] at hx
  by_cases hneg : i < 0
  · rw [if_pos hneg] at hx
    rcases List.mem_cons.mp hx with rfl | hx
    · decide
    · exact fun he =>
        absurd (he ▸ natChars_all_digits i.natAbs x hx) (by decide)
  · rw [if_neg hneg] at hx
    exact fun he =>
      absurd (he ▸ natChars_all_digits i.natAbs x hx) (by decide)

mutual

theorem encodeV_no_nl : ∀ (v : JVal) (x : Char), x ∈ encodeV v → x ≠ '\n'
  | .null, x, hx => by
    have h : x ∈ ['n', 'u', 'l', 'l'] := hx
    rcases List.mem_cons.mp h with rfl | h
    · decide
    rcases List.mem_cons.mp h with rfl | h
    · decide
    rcases List.mem_cons.mp h with rfl | h
    · decide
    rw [List.mem_singleton] at h
    subst h
    decide
  | .bool true, x, hx => by
    have h : x ∈ ['t', 'r', 'u', 'e'] := hx
    rcases List.mem_cons.mp h with rfl | h
    · decide
    rcases List.mem_cons.mp h with rfl | h
    · decide
    rcases List.mem_cons.mp h with rfl | h
    · decide
    rw [List.mem_singleton] at h
    subst h
    decide
  | .bool false, x, hx => by
    have h : x ∈ ['f', 'a', 'l', 's', 'e'] := hx
    rcases List.mem_cons.mp h with rfl | h
    · decide
    rcases List.mem_cons.mp h with rfl | h
    · decide
    rcases List.mem_cons.mp h with rfl | h
    · decide
    rcases List.mem_cons.mp h with rfl | h
    · decide
    rw [List.mem_singleton] at h
    subst h
    decide
  | .int i, x, hx => intChars_no_nl i x hx
  | .str s, x, hx => by
    have h : x ∈ '"' :: (s.flatMap escChar ++ ['"']) := hx
    rcases List.mem_cons.mp h with rfl | h
    · decide
    rw [List.mem_append] at h
    rcases h with h | h
    · exact flatMap_escChar_no_nl s x h
    · rw [List.mem_singleton] at h
      subst h
      decide
  | .arr vs, x, hx => by
    have h : x ∈ '[' :: (encodeItems vs ++ [']']) := hx
    rcases List.mem_cons.mp h with rfl | h
    · decide
    rw [List.mem_append] at h
    rcases h with h | h
    · exact encodeItems_no_nl vs x h
    · rw [List.mem_singleton] at h
      subst h
      decide
  | .obj ps, x, hx => by
    have h : x ∈ '{' :: (encodePairs ps ++ ['}']) := hx
    rcases List.mem_cons.mp h with rfl | h
    · decide
    rw [List.mem_append] at h
    rcases h with h | h
    · exact encodePairs_no_nl ps x h
    · rw [List.mem_singleton] at h
      subst h
      decide
  termination_by v _ _ => sizeOf v

theorem encodeItems_no_nl : ∀ (vs : List JVal) (x : Char),
    x ∈ encodeItems vs → x ≠ '\n'
  | [], x, hx => absurd hx (by simp [encodeItems])
  | [v], x, hx => encodeV_no_nl v x hx
  | v :: w :: vs, x, hx => by
    have h : x ∈ encodeV v ++ ',' :: encodeItems (w :: vs) := hx
    rw [List.mem_append] at h
    rcases h with h | h
    · exact encodeV_no_nl v x h
    rcases List.mem_cons.mp h with rfl | h
    · decide
    · exact encodeItems_no_nl (w :: vs) x h
  termination_by vs _ _ => sizeOf vs

theorem encodePairs_no_nl : ∀ (ps : List (List Char × JVal)) (x : Char),
    x ∈ encodePairs ps → x ≠ '\n'
  | [], x, hx => absurd hx (by simp [encodePairs])
  | [(k, v)], x, hx => by
    have h : x ∈ ('"' :: (k.flatMap escChar ++ ['"'])) ++ ':' :: encodeV v := hx
    rw [List.mem_append] at h
    rcases h with h | h
    · rcases List.mem_cons.mp h with rfl | h
      · decide
      rw [List.mem_append] at h
      rcases h with h | h
      · exact flatMap_escChar_no_nl k x h
      · rw [List.mem_singleton] at h
        subst h
        decide
    · rcases List.mem_cons.mp h with rfl | h
      · decide
      · exact encodeV_no_nl v x h
  | (k, v) :: q :: ps, x, hx => by
    have h : x ∈ (('"' :: (k.flatMap escChar ++ ['"'])) ++ ':' :: encodeV v) ++
        ',' :: encodePairs (q :: ps) := hx
    rw [List.mem_append] at h
    rcases h with h | h
    · rw [List.mem_append] at h
      rcases h with h | h
      · rcases List.mem_cons.mp h with rfl | h
        · decide
        rw [List.mem_append] at h
        rcases h with h | h
        · exact flatMap_escChar_no_nl k x h
        · rw [List.mem_singleton] at h
          subst h
          decide
      · rcases List.mem_cons.mp h with rfl | h
        · decide
        · exact encodeV_no_nl v x h
    · rcases List.mem_cons.mp h with rfl | h
      · decide
      · exact encodePairs_no_nl (q :: ps) x h
  termination_by ps _ _ => sizeOf ps

end

/-- `str.strip()` leaves a string alone when neither end is whitespace. -/
theorem pyStrip_id (l : List Char)
    (hh : ∀ c, l.head? = some c → isWSChar c = false)
    (hl : ∀ c, l.getLast? = some c → isWSChar c = false) :
    pyStrip l = l := by
  rcases l with _ | ⟨a, t⟩
  · rfl
  rcases hr : (a :: t).reverse with _ | ⟨z, w⟩
  · exact absurd hr (by simp)
  have hz : isWSChar z = false := hl z (by rw [← List.head?_reverse, hr]; rfl)
  rw [pyStrip, show (a :: t).dropWhile isWSChar = a :: t from
      skipWS_cons_not_ws (hh a rfl) t, hr, List.dropWhile_cons]
  simp only [hz, Bool.false_eq_true, if_false]
  rw [← hr, List.reverse_reverse]

/-- `split("\n")` on newline-free input returns the single segment. -/
theorem splitNL_no_nl (l : List Char) (h : '\n' ∉ l) : splitNL l = [l] := by
  induction l with
  | nil => rfl
  | cons c t ih =>
    rw [splitNL,
      if_neg (fun (hc : c = Char.ofNat 10) => h (hc ▸ List.mem_cons_self c t)),
      ih (fun hm => h (List.mem_cons_of_mem c hm))]

/-- `split("\n")` peels a newline-free lead segment at its following
newline. -/
theorem splitNL_append_nl (a r : List Char) (h : '\n' ∉ a) :
    splitNL (a ++ '\n' :: r) = a :: splitNL r := by
  induction a with
  | nil =>
    rw [List.nil_append, splitNL, if_pos rfl]
  | cons c t ih =>
    rw [List.cons_append, splitNL,
      if_neg (fun (hc : c = Char.ofNat 10) => h (hc ▸ List.mem_cons_self c t)),
      ih (fun hm => h (List.mem_cons_of_mem c hm))]

/-!
### Read-loop step lemmas
-/

theorem feedPieces_skip (buf piece : List Char) (rest : List (List Char))
    (h : pyStrip piece = []) :
    feedPieces buf (piece :: rest) = feedPieces buf rest := by
  rw [feedPieces.eq_def]
  dsimp only
  rw [h, if_pos rfl]

theorem feedPieces_err (buf piece : List Char) (rest : List (List Char))
    (hp : pyStrip piece ≠ [])
    (hlen : MAX_BUFFER_SIZE < (buf ++ pyStrip piece).length) :
    feedPieces buf (piece :: rest) = ([], .decodeError) := by
  rw [feedPieces.eq_def]
  dsimp only
  rw [if_neg hp, if_pos hlen]

theorem feedPieces_yield (buf piece : List Char) (rest : List (List Char))
    (v : JVal) (hp : pyStrip piece ≠ [])
    (hlen : ¬MAX_BUFFER_SIZE < (buf ++ pyStrip piece).length)
    (hjs : jsonLoads (buf ++ pyStrip piece) = some v) :
    feedPieces buf (piece :: rest) =
      (v :: (feedPieces [] rest).1, (feedPieces [] rest).2) := by
  rw [feedPieces.eq_def]
  dsimp only
  rw [if_neg hp, if_neg hlen, hjs]

theorem feedPieces_acc (buf piece : List Char) (rest : List (List Char))
    (hp : pyStrip piece ≠ [])
    (hlen : ¬MAX_BUFFER_SIZE < (buf ++ pyStrip piece).length)
    (hjs : jsonLoads (buf ++ pyStrip piece) = none) :
    feedPieces buf (piece :: rest) = feedPieces (buf ++ pyStrip piece) rest := by
  rw [feedPieces.eq_def]
  dsimp only
  rw [if_neg hp, if_neg hlen, hjs]

theorem feedChunks_skip (buf chunk : List Char) (rest : List (List Char))
    (h : pyStrip chunk = []) :
    feedChunks buf (chunk :: rest) = feedChunks buf rest := by
  rw [feedChunks.eq_def]
  dsimp only
  rw [h, if_pos rfl]

theorem feedChunks_ok (buf chunk : List Char) (rest : List (List Char))
    (outs : List JVal) (b1 : List Char) (hs : pyStrip chunk ≠ [])
    (hfp : feedPieces buf (splitNL (pyStrip chunk)) = (outs, .ok b1)) :
    feedChunks buf (chunk :: rest) =
      (outs ++ (feedChunks b1 rest).1, (feedChunks b1 rest).2) := by
  rw [feedChunks.eq_def]
  dsimp only
  rw [if_neg hs, hfp]

theorem feedChunks_err (buf chunk : List Char) (rest : List (List Char))
    (outs : List JVal) (hs : pyStrip chunk ≠ [])
    (hfp : feedPieces buf (splitNL (pyStrip chunk)) = (outs, .decodeError)) :
    feedChunks buf (chunk :: rest) = (outs, .decodeError) := by
  rw [feedChunks.eq_def]
  dsimp only
  rw [if_neg hs, hfp]

theorem foldr_append_nil_all (chunks : List (List Char))
    (h : chunks.foldr (· ++ ·) [] = []) : ∀ c ∈ chunks, c = [] := by
  induction chunks with
  | nil => intro c hc; exact absurd hc (by simp)
  | cons a t ih =>
    rw [List.foldr_cons] at h
    rcases List.append_eq_nil.mp h with ⟨ha, ht⟩
    intro c hc
    rcases List.mem_cons.mp hc with rfl | hc
    · exact ha
    · exact ih ht c hc

theorem feedChunks_all_nil (chunks : List (List Char)) :
    ∀ buf, (∀ c ∈ chunks, c = []) → feedChunks buf chunks = ([], .ok buf) := by
  induction chunks with
  | nil => intro buf _; rfl
  | cons a t ih =>
    intro buf h
    have ha : a = [] := h a (List.mem_cons_self a t)
    subst ha
    rw [feedChunks_skip buf [] t rfl]
    exact ih buf (fun c hc => h c (List.mem_cons_of_mem [] hc))

theorem feedPieces_nils (n : Nat) (buf : List Char) (rest : List (List Char)) :
    feedPieces buf (List.replicate n [] ++ rest) = feedPieces buf rest := by
  induction n with
  | zero => rw [List.replicate_zero, List.nil_append]
  | succ m ih =>
    rw [List.replicate_succ, List.cons_append, feedPieces_skip buf [] _ rfl, ih]

theorem mem_of_mem_chunks (chunks : List (List Char)) (c : List Char)
    (hc : c ∈ chunks) (x : Char) (hx : x ∈ c) :
    x ∈ chunks.foldr (· ++ ·) [] := by
  induction chunks with
  | nil => exact absurd hc (by simp)
  | cons a t ih =>
    rw [List.foldr_cons, List.mem_append]
    rcases List.mem_cons.mp hc with rfl | hc
    · exact Or.inl hx
    · exact Or.inr (ih hc)

theorem encodeV_obj_last (fs : List (List Char × JVal)) :
    (encodeV (.obj fs)).getLast? = some '}' := by
  show ('{' :: (encodePairs fs ++ ['}'])).getLast? = some '}'
  rw [← List.cons_append, List.getLast?_concat]

theorem pyStrip_encodeV_obj (fs : List (List Char × JVal)) :
    pyStrip (encodeV (.obj fs)) = encodeV (.obj fs) := by
  refine pyStrip_id _ ?_ ?_
  · intro c hc
    have h2 : some '{' = some c := hc
    injection h2 with h2
    rw [← h2]
    decide
  · intro c hc
    have h2 : some '}' = some c := (encodeV_obj_last fs).symm.trans hc
    injection h2 with h2
    rw [← h2]
    decide

/-- A single object, split across arbitrary strip-invariant chunks, is
reassembled exactly: the run yields that one object and ends with an
empty buffer. -/
theorem feedChunks_obj (fs : List (List Char × JVal)) :
    ∀ (chunks : List (List Char)) (buf : List Char),
      buf ++ chunks.foldr (· ++ ·) [] = encodeV (.obj fs) →
      chunks.foldr (· ++ ·) [] ≠ [] →
      (∀ c ∈ chunks, pyStrip c = c) →
      (∀ c ∈ chunks, '\n' ∉ c) →
      (encodeV (.obj fs)).length ≤ MAX_BUFFER_SIZE →
      feedChunks buf chunks = ([.obj fs], .ok []) := by
  intro chunks
  induction chunks with
  | nil => intro buf _ hne _ _ _; exact absurd rfl hne
  | cons c rest ih =>
    intro buf hjoin hne hstrip hnl hmax
    by_cases hc : c = []
    · subst hc
      rw [feedChunks_skip buf [] rest rfl]
      rw [List.foldr_cons, List.nil_append] at hjoin hne
      exact ih buf hjoin hne (fun d hd => hstrip d (List.mem_cons_of_mem _ hd))
        (fun d hd => hnl d (List.mem_cons_of_mem _ hd)) hmax
    · have hsc : pyStrip c = c := hstrip c (List.mem_cons_self c rest)
      have hnc : '\n' ∉ c := hnl c (List.mem_cons_self c rest)
      have hsp : splitNL (pyStrip c) = [c] := by
        rw [hsc, splitNL_no_nl c hnc]
      rw [List.foldr_cons] at hjoin
      by_cases hrest : rest.foldr (· ++ ·) [] = []
      · have hbc : buf ++ c = encodeV (.obj fs) := by
          rw [← hjoin, hrest, List.append_nil]
        have hlen : ¬MAX_BUFFER_SIZE < (buf ++ pyStrip c).length := by
          rw [hsc, hbc]
          omega
        have hjs : jsonLoads (buf ++ pyStrip c) = some (.obj fs) := by
          rw [hsc, hbc]
          exact jsonLoads_encodeV _
        have hfp : feedPieces buf (splitNL (pyStrip c)) = ([.obj fs], .ok []) := by
          rw [hsp, feedPieces_yield buf c [] (.obj fs)
            (by rw [hsc]; exact hc) hlen hjs]
          rfl
        rw [feedChunks_ok buf c rest [.obj fs] [] (by rw [hsc]; exact hc) hfp,
          feedChunks_all_nil rest [] (foldr_append_nil_all rest hrest)]
        rfl
      · have hpfx : (buf ++ c) ++ rest.foldr (· ++ ·) [] = encodeV (.obj fs) := by
          rw [List.append_assoc]
          exact hjoin
        have hlen : ¬MAX_BUFFER_SIZE < (buf ++ pyStrip c).length := by
          rw [hsc]
          have hle : (buf ++ c).length ≤ (encodeV (.obj fs)).length := by
            rw [← hpfx]
            simp
          omega
        have hjs : jsonLoads (buf ++ pyStrip c) = none := by
          rw [hsc]
          exact jsonLoads_pfx_obj fs (buf ++ c) _ hpfx hrest
        have hfp : feedPieces buf (splitNL (pyStrip c)) = ([], .ok (buf ++ c)) := by
          rw [hsp, feedPieces_acc buf c [] (by rw [hsc]; exact hc) hlen hjs, hsc]
          rfl
        rw [feedChunks_ok buf c rest [] (buf ++ c) (by rw [hsc]; exact hc) hfp,
          ih (buf ++ c) hpfx hrest
            (fun d hd => hstrip d (List.mem_cons_of_mem _ hd))
            (fun d hd => hnl d (List.mem_cons_of_mem _ hd)) hmax]
        rfl

theorem splitNL_nls (j : Nat) (b : List Char) (h : '\n' ∉ b) :
    splitNL (List.replicate j '\n' ++ b) = List.replicate j [] ++ [b] := by
  induction j with
  | zero =>
    rw [List.replicate_zero, List.nil_append, List.replicate_zero,
      List.nil_append]
    exact splitNL_no_nl b h
  | succ m ih =>
    rw [List.replicate_succ, List.cons_append, splitNL, if_pos rfl, ih,
      List.replicate_succ, List.cons_append]

/-- Two complete objects delivered in one chunk, joined by one or more
newlines, are yielded as exactly those two objects, in order. -/
theorem feedChunks_two_objs (g1 g2 : List (List Char × JVal)) (j : Nat)
    (hj : 0 < j)
    (h1 : (encodeV (.obj g1)).length ≤ MAX_BUFFER_SIZE)
    (h2 : (encodeV (.obj g2)).length ≤ MAX_BUFFER_SIZE) :
    feedChunks []
        [encodeV (.obj g1) ++ List.replicate j '\n' ++ encodeV (.obj g2)]
      = ([.obj g1, .obj g2], .ok []) := by
  obtain ⟨m, rfl⟩ : ∃ m, j = m + 1 := ⟨j - 1, by omega⟩
  have hh : (encodeV (.obj g1) ++ List.replicate (m + 1) '\n' ++
      encodeV (.obj g2)).head? = some '{' := rfl
  have hlast : (encodeV (.obj g1) ++ List.replicate (m + 1) '\n' ++
      encodeV (.obj g2)).getLast? = some '}' := by
    rw [List.getLast?_append, encodeV_obj_last]
    rfl
  have hstr : pyStrip (encodeV (.obj g1) ++ List.replicate (m + 1) '\n' ++
      encodeV (.obj g2)) = encodeV (.obj g1) ++ List.replicate (m + 1) '\n' ++
      encodeV (.obj g2) := by
    refine pyStrip_id _ ?_ ?_
    · intro c hcc
      have h3 : some '{' = some c := hh.symm.trans hcc
      injection h3 with h3
      rw [← h3]
      decide
    · intro c hcc
      have h3 : some '}' = some c := hlast.symm.trans hcc
      injection h3 with h3
      rw [← h3]
      decide
  have hne : encodeV (.obj g1) ++ List.replicate (m + 1) '\n' ++
      encodeV (.obj g2) ≠ [] := by
    intro h0
    rw [h0] at hh
    exact absurd hh (by simp)
  have hnl1 : '\n' ∉ encodeV (.obj g1) :=
    fun hmem => encodeV_no_nl (.obj g1) '\n' hmem rfl
  have hnl2 : '\n' ∉ encodeV (.obj g2) :=
    fun hmem => encodeV_no_nl (.obj g2) '\n' hmem rfl
  have hchunk : encodeV (.obj g1) ++ List.replicate (m + 1) '\n' ++
      encodeV (.obj g2) = encodeV (.obj g1) ++
      ('\n' :: (List.replicate m '\n' ++ encodeV (.obj g2))) := by
    rw [List.replicate_succ]
    simp [List.append_assoc]
  have hsplit : splitNL (encodeV (.obj g1) ++ List.replicate (m + 1) '\n' ++
      encodeV (.obj g2)) =
      encodeV (.obj g1) :: (List.replicate m [] ++ [encodeV (.obj g2)]) := by
    rw [hchunk, splitNL_append_nl _ _ hnl1, splitNL_nls m _ hnl2]
  have hne1 : encodeV (.obj g1) ≠ [] :=
    show ('{' :: (encodePairs g1 ++ ['}'])) ≠ [] from List.cons_ne_nil _ _
  have hne2 : encodeV (.obj g2) ≠ [] :=
    show ('{' :: (encodePairs g2 ++ ['}'])) ≠ [] from List.cons_ne_nil _ _
  have hfp : feedPieces []
      (encodeV (.obj g1) :: (List.replicate m [] ++ [encodeV (.obj g2)])) =
      ([.obj g1, .obj g2], .ok []) := by
    rw [feedPieces_yield [] (encodeV (.obj g1)) _ (.obj g1)
        (by rw [pyStrip_encodeV_obj]; exact hne1)
        (by rw [pyStrip_encodeV_obj, List.nil_append]; omega)
        (by rw [pyStrip_encodeV_obj, List.nil_append]; exact jsonLoads_encodeV _),
      feedPieces_nils m [] [encodeV (.obj g2)],
      feedPieces_yield [] (encodeV (.obj g2)) [] (.obj g2)
        (by rw [pyStrip_encodeV_obj]; exact hne2)
        (by rw [pyStrip_encodeV_obj, List.nil_append]; omega)
        (by rw [pyStrip_encodeV_obj, List.nil_append]; exact jsonLoads_encodeV _)]
    rfl
  rw [feedChunks_ok [] _ [] [.obj g1, .obj g2] [] (by rw [hstr]; exact hne)
    (by rw [hstr, hsplit]; exact hfp)]
  rfl

/-- The accumulation buffer, whenever the piece loop finishes normally,
is within the 1 MiB ceiling (provided it started within it). -/
theorem feedPieces_ok_bound (pieces : List (List Char)) :
    ∀ buf b2, buf.length ≤ MAX_BUFFER_SIZE →
      (feedPieces buf pieces).2 = .ok b2 → b2.length ≤ MAX_BUFFER_SIZE := by
  induction pieces with
  | nil =>
    intro buf b2 hb h
    have h' : LoopExit.ok buf = .ok b2 := h
    injection h' with h'
    rw [← h']
    exact hb
  | cons piece rest ih =>
    intro buf b2 hb h
    by_cases hp : pyStrip piece = []
    · rw [feedPieces_skip buf piece rest hp] at h
      exact ih buf b2 hb h
    · by_cases hl : MAX_BUFFER_SIZE < (buf ++ pyStrip piece).length
      · rw [feedPieces_err buf piece rest hp hl] at h
        exact absurd h (by simp)
      · rcases hjs : jsonLoads (buf ++ pyStrip piece) with _ | v
        · rw [feedPieces_acc buf piece rest hp hl hjs] at h
          exact ih (buf ++ pyStrip piece) b2 (by omega) h
        · rw [feedPieces_yield buf piece rest v hp hl hjs] at h
          exact ih [] b2 (by simp) h

/-- Same bound across whole chunks: a normally-terminating run never
leaves more than `MAX_BUFFER_SIZE` accumulated. -/
theorem feedChunks_ok_bound (chunks : List (List Char)) :
    ∀ buf b2, buf.length ≤ MAX_BUFFER_SIZE →
      (feedChunks buf chunks).2 = .ok b2 → b2.length ≤ MAX_BUFFER_SIZE := by
  induction chunks with
  | nil =>
    intro buf b2 hb h
    have h' : LoopExit.ok buf = .ok b2 := h
    injection h' with h'
    rw [← h']
    exact hb
  | cons chunk rest ih =>
    intro buf b2 hb h
    by_cases hs : pyStrip chunk = []
    · rw [feedChunks_skip buf chunk rest hs] at h
      exact ih buf b2 hb h
    · rcases hfp : feedPieces buf (splitNL (pyStrip chunk)) with ⟨outs, ex⟩
      rcases ex with b1 | _
      · rw [feedChunks_ok buf chunk rest outs b1 hs hfp] at h
        have hb1 : b1.length ≤ MAX_BUFFER_SIZE :=
          feedPieces_ok_bound (splitNL (pyStrip chunk)) buf b1 hb
            (by rw [hfp])
        exact ih b1 b2 hb1 h
      · rw [feedChunks_err buf chunk rest outs hs hfp] at h
        exact absurd h (by simp)

theorem replicate_brace_head (n : Nat) (c : Char)
    (hc : (List.replicate n '{').head? = some c) : isWSChar c = false := by
  rcases n with _ | m
  · rw [List.replicate_zero] at hc
    exact absurd hc (by simp)
  · rw [List.replicate_succ] at hc
    have h2 : some '{' = some c := hc
    injection h2 with h2
    rw [← h2]
    decide

theorem pyStrip_replicate_brace (n : Nat) :
    pyStrip (List.replicate n '{') = List.replicate n '{' := by
  refine pyStrip_id _ (replicate_brace_head n) ?_
  intro c hc
  rw [← List.head?_reverse, List.reverse_replicate] at hc
  exact replicate_brace_head n c hc

/-!
## Claims C5 and C6: the buffering loop
-/

/-- Counterexample to C5 as stated: the read loop calls `.strip()` on
every chunk, so whitespace that lies inside a JSON string at a chunk
boundary is destroyed. Splitting the object `{"a":"x y"}` at offset 8
(right after the space) makes the loop yield `{"a":"xy"}` — a parsed
object, but not equal to the original. -/
theorem buffered_chunk_strip_corrupts :
    readStdout [(encodeV (.obj [( ['a'], .str ['x', ' ', 'y'])])).take 8,
        (encodeV (.obj [( ['a'], .str ['x', ' ', 'y'])])).drop 8]
      = ([.obj [( ['a'], .str ['x', 'y'])]], .ok []) ∧
    ¬(JVal.obj [( ['a'], .str ['x', 'y'])]
        = .obj [( ['a'], .str ['x', ' ', 'y'])]) := by
  decide

/-- C5 (amended): for a single well-formed JSON object whose compact
text fits the buffer ceiling, delivered split into an arbitrary sequence
of chunks on which `.strip()` is the identity, the loop yields exactly
one parsed object equal to the original; and two complete objects
delivered in one chunk joined by one or more newlines are yielded as
exactly those two objects, in order. -/
theorem buffered_reassembly_amended
    (fs g1 g2 : List (List Char × JVal)) (chunks : List (List Char)) (j : Nat) :
    (chunks.foldr (· ++ ·) [] = encodeV (.obj fs) →
      (∀ c ∈ chunks, pyStrip c = c) →
      (encodeV (.obj fs)).length ≤ MAX_BUFFER_SIZE →
      readStdout chunks = ([.obj fs], .ok [])) ∧
    (0 < j →
      (encodeV (.obj g1)).length ≤ MAX_BUFFER_SIZE →
      (encodeV (.obj g2)).length ≤ MAX_BUFFER_SIZE →
      readStdout
          [encodeV (.obj g1) ++ List.replicate j '\n' ++ encodeV (.obj g2)]
        = ([.obj g1, .obj g2], .ok [])) := by
  constructor
  · intro hjoin hstrip hmax
    have hne : chunks.foldr (· ++ ·) [] ≠ [] := by
      rw [hjoin]
      exact show ('{' :: (encodePairs fs ++ ['}'])) ≠ [] from
        List.cons_ne_nil _ _
    have hnl : ∀ c ∈ chunks, '\n' ∉ c := by
      intro c hcm hmem
      exact encodeV_no_nl (.obj fs) '\n'
        (hjoin ▸ mem_of_mem_chunks chunks c hcm '\n' hmem) rfl
    exact feedChunks_obj fs chunks []
      (by rw [List.nil_append]; exact hjoin) hne hstrip hnl hmax
  · intro hj h1 h2
    exact feedChunks_two_objs g1 g2 j hj h1 h2

theorem buffered_reassembly_amended_witness :
    readStdout [(encodeV (.obj [( ['a'], .int 12)])).take 3,
        (encodeV (.obj [( ['a'], .int 12)])).drop 3]
      = ([.obj [( ['a'], .int 12)]], .ok []) ∧
    readStdout [encodeV (.obj []) ++ List.replicate 2 '\n' ++
        encodeV (.obj [( ['b'], .bool true)])]
      = ([.obj [], .obj [( ['b'], .bool true)]], .ok []) :=
  ⟨(buffered_reassembly_amended [( ['a'], .int 12)] [] []
      [(encodeV (.obj [( ['a'], .int 12)])).take 3,
        (encodeV (.obj [( ['a'], .int 12)])).drop 3] 0).1
      (by decide) (by decide) (by decide),
   (buffered_reassembly_amended [] [] [( ['b'], .bool true)] [] 2).2
      (by decide) (by decide) (by decide)⟩

/-- C6: the accumulated buffer never grows past the 1 MiB limit on any
normally-terminating run, and a chunk that pushes the accumulation past
the limit makes the loop fail with the decode error instead of
buffering further. -/
theorem buffer_limit_enforced :
    (∀ (chunks : List (List Char)) (buf b2 : List Char),
      buf.length ≤ MAX_BUFFER_SIZE →
      (feedChunks buf chunks).2 = .ok b2 → b2.length ≤ MAX_BUFFER_SIZE) ∧
    (∀ (buf c : List Char) (rest : List (List Char)),
      pyStrip c = c → c ≠ [] → '\n' ∉ c →
      MAX_BUFFER_SIZE < (buf ++ c).length →
      feedChunks buf (c :: rest) = ([], .decodeError)) := by
  constructor
  · intro chunks buf b2 hb h
    exact feedChunks_ok_bound chunks buf b2 hb h
  · intro buf c rest hstr hne hnl hlen
    have hfp : feedPieces buf (splitNL (pyStrip c)) = ([], .decodeError) := by
      rw [hstr, splitNL_no_nl c hnl]
      exact feedPieces_err buf c [] (by rw [hstr]; exact hne)
        (by rw [hstr]; exact hlen)
    exact feedChunks_err buf c rest [] (by rw [hstr]; exact hne) hfp

theorem buffer_limit_enforced_witness :
    ['['].length ≤ MAX_BUFFER_SIZE ∧
    feedChunks [] [List.replicate (MAX_BUFFER_SIZE + 1) '{']
      = ([], .decodeError) :=
  ⟨buffer_limit_enforced.1 [['[']] [] ['['] (by decide) (by decide),
   buffer_limit_enforced.2 [] (List.replicate (MAX_BUFFER_SIZE + 1) '{') []
     (pyStrip_replicate_brace _)
     (by simp)
     (fun hm => absurd (List.eq_of_mem_replicate hm) (by decide))
     (by simp)⟩
